import Mathlib

/-!
Shallow embedding of `scripts/execution_layer.py` (cut discovery, version
assignment, template substitution, feature-name validation), with proofs
about its behaviour.  Python strings are modelled as lists of characters;
functions that can raise return `Except` or `Option`.
-/

open List

deriving instance DecidableEq for Except

abbrev Str := List Char

/-- Python regex class `\s` over the ASCII inputs this script handles. -/
def isPySpace (c : Char) : Bool :=
  c = ' ' || c = '\t' || c = '\n' || c = '\r' || c = '\x0b' || c = '\x0c'

/-- Python regex class `[A-Z_]`. -/
def isVarChar (c : Char) : Bool :=
  ('A' ≤ c && c ≤ 'Z') || c = '_'

/-- Python regex class `[a-zA-Z0-9_]`. -/
def isWordChar (c : Char) : Bool :=
  ('a' ≤ c && c ≤ 'z') || ('A' ≤ c && c ≤ 'Z') || c.isDigit || c = '_'

/-- The decimal digit character for `d < 10`. -/
def digitChar (d : ℕ) : Char :=
  match d with
  | 0 => '0' | 1 => '1' | 2 => '2' | 3 => '3' | 4 => '4'
  | 5 => '5' | 6 => '6' | 7 => '7' | 8 => '8' | 9 => '9'
  | _ => '*'

/-- Fuelled digit emitter; any `fuel > n` reproduces the decimal digits of
`n`, and the caller always supplies `n + 1`.  (Structural recursion keeps
the function computable by the kernel.) -/
def natDecimalGo : ℕ → ℕ → Str
  | 0, _ => []
  | fuel + 1, n =>
    if n < 10 then [digitChar n]
    else natDecimalGo fuel (n / 10) ++ [digitChar (n % 10)]

/-- The decimal representation of a natural number, as produced by
Python `str(n)` for the nonnegative ints this script prints. -/
def natDecimal (n : ℕ) : Str := natDecimalGo (n + 1) n



/-- Digit-group scanner for `int()`: digits with single underscores allowed
between them (PEP 515).  `acc` is the value of the digits consumed so far. -/
def digitGroups (acc : ℕ) : Str → Option ℕ
  | [] => some acc
  | c :: rest =>
    if c = '_' then
      match rest with
      | d :: rest2 => if d.isDigit then digitGroups (acc * 10 + (d.toNat - 48)) rest2 else none
      | [] => none
    else if c.isDigit then digitGroups (acc * 10 + (c.toNat - 48)) rest else none

/-- Leading-digit entry point of the digit-group scanner. -/
def digitsVal : Str → Option ℕ
  | [] => none
  | c :: rest => if c.isDigit then digitGroups (c.toNat - 48) rest else none

/-- Python `int(s)` on the strings this script passes to it: surrounding
whitespace is stripped, then decimal digits with single underscores allowed
between digit groups; `none` where `int()` raises `ValueError`.  A sign is
never handled because every argument here starts with a digit. -/
def pyInt (s : Str) : Option ℕ :=
  digitsVal (((s.dropWhile isPySpace).reverse.dropWhile isPySpace).reverse)

/-- Sort key returned by `discover_cuts.snapshot_key`: an integer ordinal,
or the float infinity used for the `latest` stem. -/
inductive SnapKey
  | num : ℕ → SnapKey
  | inf : SnapKey
deriving DecidableEq

/-- Comparison of snapshot keys (Python `int`/`float('inf')` order). -/
def SnapKey.le : SnapKey → SnapKey → Bool
  | _, .inf => true
  | .inf, .num _ => false
  | .num a, .num b => a ≤ b

/-- `discover_cuts.snapshot_key`; `none` when `int()` raises `ValueError`. -/
def snapshot_key (s : Str) : Option SnapKey :=
  if s = ("latest").toList then some SnapKey.inf
  else (pyInt (s.drop 1)).map SnapKey.num

/-- The key as consulted during sorting.  `discover_cuts` fails before
sorting when some snapshot key does not parse, so the default branch is
never reached on the success path. -/
def snapKeyTotal (s : Str) : SnapKey :=
  (snapshot_key s).getD SnapKey.inf

/-- Ordering of snapshot stems by their keys. -/
def snapLe (a b : Str) : Bool :=
  (snapKeyTotal a).le (snapKeyTotal b)

/-- Python string comparison: lexicographic by code point. -/
def pyStrLe : Str → Str → Bool
  | [], _ => true
  | _ :: _, [] => false
  | a :: as, b :: bs =>
    if a.toNat < b.toNat then true
    else if b.toNat < a.toNat then false
    else pyStrLe as bs

/-- Insert `a` into a list sorted by `le`, in front of the first element it
compares `le` to; combined with `sortB` this reproduces the stable order of
Python `list.sort`. -/
def insB (le : α → α → Bool) (a : α) : List α → List α
  | [] => [a]
  | b :: l => if le a b then a :: b :: l else b :: insB le a l

/-- Python `list.sort` (a stable sort) with comparison `le`. -/
def sortB (le : α → α → Bool) : List α → List α
  | [] => []
  | a :: l => insB le a (sortB le l)

/-- One registry entry returned by `discover_cuts`: the version string, the
optional constant name (features only), and the module name. -/
structure Cut where
  version : Str
  feature : Option Str
  module : Str
deriving DecidableEq

/-- Modules in `sui-execution` that do not count as cuts. -/
def NOT_A_CUT : List Str :=
  [("executor").toList, ("lib").toList, ("lib.template").toList,
   ("tests").toList, ("verifier").toList]

/-- `re.match(r"latest|v[0-9]+", stem)`: a match anchored at the start
only, i.e. a prefix match. -/
def isSnapshotName (s : Str) : Bool :=
  (("latest").toList).isPrefixOf s ||
    (match s with
     | 'v' :: c :: _ => c.isDigit
     | _ => false)

/-- Message for the `ValueError` raised by `int()`. -/
def intErr : Str := ("ValueError: invalid literal for int with base 10").toList

/-- Message for the `ValueError` raised by `max()` on an empty sequence. -/
def maxErr : Str := ("ValueError: max arg is an empty sequence").toList

/-- Turn an optional value into `Except`, raising `e` on `none`. -/
def orErr (o : Option α) (e : Str) : Except Str α :=
  match o with
  | some a => Except.ok a
  | none => Except.error e

/-- Python `str.upper` on the ASCII module names used here. -/
def pyUpper (s : Str) : Str := s.map Char.toUpper

/-- Python `max` over a nonempty sequence of ints. -/
def pyMaxList (v : ℕ) (vs : List ℕ) : ℕ := vs.foldl max v

/-- The snapshot loop of `discover_cuts`: every non-`latest` snapshot gets
the digit tail of its name as its version string, and `latest` gets one more
than the maximum version parsed back from the entries assigned so far
(a `ValueError` when there are none). -/
def walkSnapshots : List Str → List Cut → Except Str (List Cut)
  | [], acc => Except.ok acc
  | s :: rest, acc =>
    if s = ("latest").toList then
      match acc.mapM (fun c => orErr (pyInt c.version) intErr) with
      | Except.error e => Except.error e
      | Except.ok [] => Except.error maxErr
      | Except.ok (v :: vs) =>
        walkSnapshots rest
          (acc ++ [⟨natDecimal (1 + pyMaxList v vs), none, ("latest").toList⟩])
    else
      walkSnapshots rest (acc ++ [⟨s.drop 1, none, s⟩])

/-- Version string assigned to the feature at 0-based position `i`. -/
def featVersion (i : ℕ) : Str :=
  if i = 0 then ("u64::MAX").toList
  else ("u64::MAX - ").toList ++ natDecimal i

/-- The numeric value denoted by the i-th feature version string. -/
def featValue (i : ℕ) : ℤ := ((2 : ℤ) ^ 64 - 1) - i

/-- The `iterdir` listing filtered of the `NOT_A_CUT` support modules. -/
def cutCandidates (stems : List Str) : List Str :=
  stems.filter (fun s => !(NOT_A_CUT.contains s))

/-- Candidates matching the snapshot prefix regex. -/
def snapshotStems (stems : List Str) : List Str :=
  (cutCandidates stems).filter (fun s => isSnapshotName s)

/-- The remaining candidates: feature cuts. -/
def featureStems (stems : List Str) : List Str :=
  (cutCandidates stems).filter (fun s => !(isSnapshotName s))

/-- The feature loop of `discover_cuts`: the i-th sorted feature gets
version `u64::MAX - i` and its upper-cased name as constant. -/
def featureCuts (l : List Str) : List Cut :=
  l.enum.map (fun p => ⟨featVersion p.1, some (pyUpper p.2), p.2⟩)

/-- `discover_cuts`, as a function of the module stems listed in the source
directory (in `iterdir` order).  Filters out non-cut support modules,
classifies by the prefix regex, sorts snapshots by parsed key (`list.sort`
computes every key first, so a `ValueError` aborts here) and features by
name, then assigns versions. -/
def discover_cuts (stems : List Str) : Except Str (List Cut) :=
  match (snapshotStems stems).mapM (fun s => orErr (snapshot_key s) intErr) with
  | Except.error e => Except.error e
  | Except.ok _ =>
    match walkSnapshots (sortB snapLe (snapshotStems stems)) [] with
    | Except.error e => Except.error e
    | Except.ok scuts =>
      Except.ok (scuts ++ featureCuts (sortB pyStrLe (featureStems stems)))

/-- Python `feature or version` in the dispatch expansions: the feature
constant when present and truthy (a nonempty string), else the version. -/
def featureOr (c : Cut) : Str :=
  match c.feature with
  | some f => if f.isEmpty then c.version else f
  | none => c.version

/-- One `EXECUTOR_CUTS` block for one cut. -/
def executorBlock (spc : Str) (c : Cut) : Str :=
  spc ++ featureOr c ++ (" => Arc::new(").toList ++ c.module ++
    ("::Executor::new(").toList ++ ['\n'] ++
  spc ++ ("    protocol_config,").toList ++ ['\n'] ++
  spc ++ ("    paranoid_type_checks,").toList ++ ['\n'] ++
  spc ++ ("    silent,").toList ++ ['\n'] ++
  spc ++ (")?),").toList ++ ['\n']

/-- One `VERIFIER_CUTS` line for one cut. -/
def verifierLine (spc : Str) (c : Cut) : Str :=
  spc ++ featureOr c ++ (" => Box::new(").toList ++ c.module ++
    ("::Verifier::new(protocol_config, is_metered, metrics)),").toList

/-- The five directive identifiers `generate_lib.substitute` knows. -/
def knownVars : List Str :=
  [("GENERATED_MESSAGE").toList, ("MOD_CUTS").toList, ("FEATURE_CONSTS").toList,
   ("EXECUTOR_CUTS").toList, ("VERIFIER_CUTS").toList]

/-- `generate_lib.substitute`: expansion of one matched directive, given the
captured whitespace `spc` and identifier `var`; the unknown-identifier
branch raises `AssertionError`. -/
def substitute (cuts : List Cut) (spc var : Str) : Except Str Str :=
  if var = ("GENERATED_MESSAGE").toList then
    Except.ok (spc ++ ("// DO NOT MODIFY, Generated by ./scripts/execution-layer").toList)
  else if var = ("MOD_CUTS").toList then
    Except.ok ((cuts.map (fun c => spc ++ ("mod ").toList ++ c.module ++ [';'])).flatten)
  else if var = ("FEATURE_CONSTS").toList then
    Except.ok ((cuts.filterMap (fun c =>
      c.feature.map (fun f =>
        spc ++ ("pub const ").toList ++ f ++ (": u64 = ").toList ++ c.version ++ [';']))).flatten)
  else if var = ("EXECUTOR_CUTS").toList then
    Except.ok (List.intercalate ['\n'] (cuts.map (fun c => executorBlock spc c)))
  else if var = ("VERIFIER_CUTS").toList then
    Except.ok (List.intercalate ['\n'] (cuts.map (fun c => verifierLine spc c)))
  else
    Except.error (("AssertionError: do not know how to substitute ").toList ++ var)

/-- The literal `// $` that opens a directive after optional whitespace. -/
def dirMark : Str := ['/', '/', ' ', '$']

/-- Attempt of the pattern `^(\s*)// \$([A-Z_]+)$` at a line-start position:
greedily take whitespace, require the literal marker, greedily take the
identifier, and require the `$` anchor (end of string or a newline next).
Returns the two captures and the remainder. -/
def dirMatch (s : Str) : Option (Str × Str × Str) :=
  let spc := s.takeWhile isPySpace
  let s1 := s.dropWhile isPySpace
  if dirMark.isPrefixOf s1 then
    let s2 := s1.drop 4
    let var := s2.takeWhile isVarChar
    let rest := s2.dropWhile isVarChar
    if var.isEmpty then none
    else if rest.isEmpty || rest.head? = some '\n' then some (spc, var, rest)
    else none
  else none



/-- One pass of `re.sub` over the template.  `atStart` records whether the
current position is a line start (string start or just after a newline),
where the `^` anchor of the multiline pattern can match.  `fuel` bounds the
recursion depth: any `fuel > s.length` is enough, the caller supplies
`s.length + 1`, and structural recursion keeps the scan computable by the
kernel. -/
def subAux (f : Str → Str → Except Str Str) : ℕ → Bool → Str → Except Str Str
  | 0, _, _ => Except.error (("re.sub: fuel exhausted").toList)
  | fuel + 1, atStart, s =>
    if atStart then
      match dirMatch s with
      | some (spc, var, rest) =>
        match f spc var with
        | Except.error e => Except.error e
        | Except.ok r =>
          match subAux f fuel false rest with
          | Except.error e => Except.error e
          | Except.ok t => Except.ok (r ++ t)
      | none =>
        match s with
        | [] => Except.ok []
        | c :: cs =>
          match subAux f fuel (c = '\n') cs with
          | Except.error e => Except.error e
          | Except.ok t => Except.ok (c :: t)
    else
      match s with
      | [] => Except.ok []
      | c :: cs =>
        match subAux f fuel (c = '\n') cs with
        | Except.error e => Except.error e
        | Except.ok t => Except.ok (c :: t)

/-- `re.sub(r"^(\s*)// \$([A-Z_]+)$", substitute, template, flags=re.M)`. -/
def sub_directives (f : Str → Str → Except Str Str) (s : Str) : Except Str Str :=
  subAux f (s.length + 1) true s

/-- `generate_lib` as a function of the directory listing and the template
text: build the registry, then substitute (file I/O kept at the edges). -/
def generate_lib (stems : List Str) (template : Str) : Except Str Str :=
  match discover_cuts stems with
  | Except.error e => Except.error e
  | Except.ok cuts => sub_directives (substitute cuts) template

/-- `re.match(r"[a-z][a-zA-Z0-9_]*", f)`: a prefix match returning the
matched prefix when it succeeds. -/
def featureNameMatch (f : Str) : Option Str :=
  match f with
  | c :: rest =>
    if 'a' ≤ c && c ≤ 'z' then some (c :: rest.takeWhile isWordChar)
    else none
  | [] => none

/-- The argparse type-check `feature`: returns the argument unchanged when
the regex matches, else raises `ArgumentTypeError`. -/
def feature (f : Str) : Except Str Str :=
  match featureNameMatch f with
  | some _ => Except.ok f
  | none => Except.error (("Invalid feature name").toList)

/-- Modelled from the spec for comparison in C6: the whole string is a
lowercase letter followed by letters, digits or underscores. -/
def specFeatureNameOk (f : Str) : Bool :=
  match f with
  | c :: rest => ('a' ≤ c && c ≤ 'z') && rest.all isWordChar
  | [] => false

/-- Split a string at newline characters; always nonempty, one entry per
line (a trailing newline yields a final empty line). -/
def splitNl : Str → List Str
  | [] => [[]]
  | c :: cs =>
    if c = '\n' then [] :: splitNl cs
    else
      match splitNl cs with
      | l :: ls => (c :: l) :: ls
      | [] => [[c]]

/-- A complete line of the exact directive form: optional whitespace,
the marker, a nonempty `[A-Z_]+` identifier, nothing after. -/
def lineIsDir (l : Str) : Bool :=
  match dirMatch l with
  | some (_, _, rest) => rest.isEmpty
  | none => false

/-- The identifier of a directive line (junk on non-directive lines). -/
def lineVar (l : Str) : Str :=
  match dirMatch l with
  | some (_, v, _) => v
  | none => []
/-- Value of a digit string under the fold used by the scanner. -/
def natVal (l : Str) : ℕ := l.foldl (fun a c => a * 10 + (c.toNat - 48)) 0

def latestL : Str := ("latest").toList

def vNameL (n : ℕ) : Str := 'v' :: natDecimal n

def vCut (n : ℕ) : Cut := ⟨natDecimal n, none, vNameL n⟩

def latestCut (v : ℕ) : Cut := ⟨natDecimal v, none, latestL⟩

/-- Python `max` over a list (the empty case is diverted to an error at
the call site before this value is used). -/
def maxOf : List ℕ → ℕ
  | [] => 0
  | v :: vs => pyMaxList v vs

def natLeB (a b : ℕ) : Bool := decide (a ≤ b)

def sortNat (l : List ℕ) : List ℕ := sortB natLeB l

/-- Modelled from the spec for comparison in C3: a snapshot name is exactly
`latest` or `v` followed by one or more digits (the whole string). -/
def specSnapshotNameOk (s : Str) : Bool :=
  (s = ("latest").toList) ||
    (match s with
     | 'v' :: rest => !rest.isEmpty && rest.all (fun c => c.isDigit)
     | _ => false)


/-- The lines that follow a directive match: none when the `$` anchor hit
the end of the template, the lines of the remainder after the newline
otherwise. -/
def restLines : Str → List Str
  | [] => []
  | _ :: r => splitNl r

theorem natDecimalGo_congr :
    ∀ (n f1 f2 : ℕ), n < f1 → n < f2 → natDecimalGo f1 n = natDecimalGo f2 n := by
  intro n
  induction n using Nat.strong_induction_on with
  | _ n ih =>
    intro f1 f2 h1 h2
    cases f1 with
    | zero => omega
    | succ m1 =>
      cases f2 with
      | zero => omega
      | succ m2 =>
        by_cases h : n < 10
        · simp only [natDecimalGo, if_pos h]
        · simp only [natDecimalGo, if_neg h]
          have hlt : n / 10 < n := Nat.div_lt_self (by omega) (by omega)
          rw [ih (n / 10) hlt m1 m2 (by omega) (by omega)]

theorem natDecimal_unfold (n : ℕ) : natDecimal n =
    if n < 10 then [digitChar n]
    else natDecimal (n / 10) ++ [digitChar (n % 10)] := by
  rw [natDecimal]
  simp only [natDecimalGo]
  by_cases h : n < 10
  · simp only [if_pos h]
  · simp only [if_neg h]
    have hlt : n / 10 < n := Nat.div_lt_self (by omega) (by omega)
    rw [natDecimalGo_congr (n / 10) n (n / 10 + 1) hlt (by omega)]
    rfl

theorem length_dropWhile_le (p : α → Bool) (l : List α) :
    (l.dropWhile p).length ≤ l.length := by
  conv_rhs => rw [← List.takeWhile_append_dropWhile (p := p) (l := l)]
  rw [List.length_append]
  omega

theorem dirMatch_length {s spc var rest : Str}
    (h : dirMatch s = some (spc, var, rest)) : rest.length < s.length := by
  have hd : (s.dropWhile isPySpace).length ≤ s.length :=
    length_dropWhile_le isPySpace s
  unfold dirMatch at h
  simp only at h
  split at h
  case isTrue hp =>
    have hp4 : 4 ≤ (s.dropWhile isPySpace).length := by
      have := (List.isPrefixOf_iff_prefix.mp hp).length_le
      simpa [dirMark] using this
    have h2 : ((s.dropWhile isPySpace).drop 4).length =
        (s.dropWhile isPySpace).length - 4 := List.length_drop 4 _
    split at h
    · exact absurd h (by simp)
    · split at h
      · simp only [Option.some.injEq, Prod.mk.injEq] at h
        have hr : rest = ((s.dropWhile isPySpace).drop 4).dropWhile isVarChar :=
          h.2.2.symm
        have h3 := length_dropWhile_le isVarChar ((s.dropWhile isPySpace).drop 4)
        rw [hr]
        omega
      · exact absurd h (by simp)
  case isFalse hp => exact absurd h (by simp)


/-! ### Decimal representation and int() parsing -/

theorem digitChar_spec {d : ℕ} (h : d < 10) :
    (digitChar d).isDigit = true ∧ (digitChar d).toNat - 48 = d ∧
      isPySpace (digitChar d) = false ∧ digitChar d ≠ '_' := by
  interval_cases d <;> exact ⟨by decide, by decide, by decide, by decide⟩

theorem natDecimal_spec (n : ℕ) :
    natDecimal n ≠ [] ∧
      ∀ c ∈ natDecimal n, c.isDigit = true ∧ isPySpace c = false ∧ c ≠ '_' := by
  induction n using Nat.strong_induction_on with
  | _ n ih =>
    rw [natDecimal_unfold]
    split
    · next h =>
      refine ⟨by simp, ?_⟩
      intro c hc
      simp only [List.mem_singleton] at hc
      subst hc
      obtain ⟨h1, _, h3, h4⟩ := digitChar_spec h
      exact ⟨h1, h3, h4⟩
    · next h =>
      have hlt : n / 10 < n := Nat.div_lt_self (by omega) (by omega)
      obtain ⟨ih1, ih2⟩ := ih _ hlt
      refine ⟨by simp, ?_⟩
      intro c hc
      rw [List.mem_append] at hc
      rcases hc with hc | hc
      · exact ih2 c hc
      · simp only [List.mem_singleton] at hc
        subst hc
        obtain ⟨h1, _, h3, h4⟩ := digitChar_spec (Nat.mod_lt n (by omega))
        exact ⟨h1, h3, h4⟩


theorem digitGroups_digits (l : Str) :
    (∀ c ∈ l, c.isDigit = true ∧ c ≠ '_') →
    ∀ acc, digitGroups acc l =
      some (l.foldl (fun a c => a * 10 + (c.toNat - 48)) acc) := by
  induction l with
  | nil => intro _ acc; rfl
  | cons c rest ih =>
    intro h acc
    have hc := h c (by simp)
    rw [digitGroups.eq_def]
    dsimp only
    rw [if_neg hc.2, if_pos hc.1, List.foldl_cons]
    exact ih (fun x hx => h x (by simp [hx])) _

theorem digitsVal_digits (l : Str) (hne : l ≠ [])
    (h : ∀ c ∈ l, c.isDigit = true ∧ c ≠ '_') :
    digitsVal l = some (natVal l) := by
  cases l with
  | nil => exact absurd rfl hne
  | cons c rest =>
    rw [digitsVal, if_pos (h c (by simp)).1,
      digitGroups_digits rest (fun x hx => h x (by simp [hx])) _]
    simp [natVal]

theorem dropWhile_eq_self_of (p : α → Bool) (l : List α)
    (h : ∀ c ∈ l, p c = false) : l.dropWhile p = l := by
  cases l with
  | nil => rfl
  | cons c t => rw [List.dropWhile_cons, h c (by simp)]; simp

theorem natVal_append_digit (a : Str) (d : Char) :
    natVal (a ++ [d]) = natVal a * 10 + (d.toNat - 48) := by
  unfold natVal
  rw [List.foldl_append]
  rfl

theorem natVal_natDecimal (n : ℕ) : natVal (natDecimal n) = n := by
  induction n using Nat.strong_induction_on with
  | _ n ih =>
    rw [natDecimal_unfold]
    split
    · next h =>
      obtain ⟨_, h2, _, _⟩ := digitChar_spec h
      simp only [natVal, List.foldl_cons, List.foldl_nil]
      omega
    · next h =>
      rw [natVal_append_digit, ih _ (Nat.div_lt_self (by omega) (by omega))]
      obtain ⟨_, h2, _, _⟩ := digitChar_spec (Nat.mod_lt n (by omega) : n % 10 < 10)
      omega

theorem pyInt_natDecimal (n : ℕ) : pyInt (natDecimal n) = some n := by
  obtain ⟨hne, hmem⟩ := natDecimal_spec n
  have hws : ∀ c ∈ natDecimal n, isPySpace c = false := fun c hc => (hmem c hc).2.1
  unfold pyInt
  rw [dropWhile_eq_self_of _ _ hws,
    dropWhile_eq_self_of _ _ (fun c hc => hws c (List.mem_reverse.mp hc)),
    List.reverse_reverse,
    digitsVal_digits _ hne (fun c hc => ⟨(hmem c hc).1, (hmem c hc).2.2⟩),
    natVal_natDecimal]

theorem natDecimal_injective {i j : ℕ} (h : natDecimal i = natDecimal j) : i = j := by
  have h1 := pyInt_natDecimal i
  rw [h, pyInt_natDecimal j] at h1
  exact (Option.some.injEq _ _).mp h1.symm

/-! ### Stable sort lemmas -/

theorem insB_perm (le : α → α → Bool) (a : α) (l : List α) :
    insB le a l ~ a :: l := by
  induction l with
  | nil => exact List.Perm.refl _
  | cons b t ih =>
    show (if le a b then a :: b :: t else b :: insB le a t) ~ a :: b :: t
    split
    · exact List.Perm.refl _
    · exact (ih.cons b).trans (List.Perm.swap a b t)

theorem sortB_perm (le : α → α → Bool) (l : List α) : sortB le l ~ l := by
  induction l with
  | nil => exact List.Perm.refl _
  | cons a t ih => exact (insB_perm le a (sortB le t)).trans (ih.cons a)

theorem insB_mem {le : α → α → Bool} {a x : α} {l : List α} :
    x ∈ insB le a l ↔ x = a ∨ x ∈ l := by
  have := (insB_perm le a l).mem_iff (a := x)
  simpa using this

theorem insB_pairwise {le : α → α → Bool}
    (htot : ∀ a b, le a b = true ∨ le b a = true)
    (htrans : ∀ a b c, le a b = true → le b c = true → le a c = true)
    (a : α) {l : List α} (hl : l.Pairwise (fun x y => le x y = true)) :
    (insB le a l).Pairwise (fun x y => le x y = true) := by
  induction l with
  | nil => simp [insB]
  | cons b t ih =>
    rw [List.pairwise_cons] at hl
    obtain ⟨hb, ht⟩ := hl
    show (if le a b then a :: b :: t else b :: insB le a t).Pairwise _
    split
    · next hab =>
      rw [List.pairwise_cons]
      refine ⟨?_, List.pairwise_cons.mpr ⟨hb, ht⟩⟩
      intro x hx
      rcases List.mem_cons.mp hx with rfl | hx
      · exact hab
      · exact htrans a b x hab (hb x hx)
    · next hab =>
      have hab' : ¬ le a b = true := by simpa using hab
      have hba : le b a = true := (htot a b).resolve_left hab'
      rw [List.pairwise_cons]
      refine ⟨?_, ih ht⟩
      intro x hx
      rcases insB_mem.mp hx with rfl | hx
      · exact hba
      · exact hb x hx

theorem sortB_pairwise {le : α → α → Bool}
    (htot : ∀ a b, le a b = true ∨ le b a = true)
    (htrans : ∀ a b c, le a b = true → le b c = true → le a c = true)
    (l : List α) :
    (sortB le l).Pairwise (fun x y => le x y = true) := by
  induction l with
  | nil => simp [sortB]
  | cons a t ih => exact insB_pairwise htot htrans a ih

theorem eq_of_perm_of_pairwise {le : α → α → Bool} {s c : List α}
    (hp : s ~ c) (hs : s.Pairwise (fun x y => le x y = true))
    (hc : c.Pairwise (fun x y => le x y = true ∧ le y x = false)) :
    s = c := by
  induction c generalizing s with
  | nil => exact hp.eq_nil
  | cons x c' ih =>
    cases s with
    | nil =>
      have := hp.symm.eq_nil
      simp at this
    | cons y s' =>
      by_cases hxy : y = x
      · subst hxy
        have hp' : s' ~ c' := hp.cons_inv
        rw [List.pairwise_cons] at hs hc
        rw [ih hp' hs.2 hc.2]
      · have hy : y ∈ x :: c' := hp.mem_iff.mp (by simp)
        have hyc : y ∈ c' := by
          rcases List.mem_cons.mp hy with h | h
          · exact absurd h hxy
          · exact h
        have hx : x ∈ y :: s' := hp.mem_iff.mpr (by simp)
        have hxs : x ∈ s' := by
          rcases List.mem_cons.mp hx with h | h
          · exact absurd h.symm hxy
          · exact h
        rw [List.pairwise_cons] at hs hc
        have h1 : le y x = true := hs.1 x hxs
        have h2 := hc.1 y hyc
        rw [h2.2] at h1
        exact absurd h1 (by simp)

theorem sortB_eq_canonical {le : α → α → Bool}
    (htot : ∀ a b, le a b = true ∨ le b a = true)
    (htrans : ∀ a b c, le a b = true → le b c = true → le a c = true)
    {l c : List α} (hp : l ~ c)
    (hc : c.Pairwise (fun x y => le x y = true ∧ le y x = false)) :
    sortB le l = c :=
  eq_of_perm_of_pairwise ((sortB_perm le l).trans hp)
    (sortB_pairwise htot htrans l) hc

theorem pairwise_and {R S : α → α → Prop} {l : List α}
    (h1 : l.Pairwise R) (h2 : l.Pairwise S) :
    l.Pairwise (fun a b => R a b ∧ S a b) := by
  induction l with
  | nil => exact List.Pairwise.nil
  | cons a t ih =>
    rw [List.pairwise_cons] at h1 h2 ⊢
    exact ⟨fun x hx => ⟨h1.1 x hx, h2.1 x hx⟩, ih h1.2 h2.2⟩

theorem sortB_eq_of_perm {le : α → α → Bool}
    (htot : ∀ a b, le a b = true ∨ le b a = true)
    (htrans : ∀ a b c, le a b = true → le b c = true → le a c = true)
    {l l' : List α} (hp : l ~ l')
    (hd : l.Pairwise (fun x y => ¬(le x y = true ∧ le y x = true))) :
    sortB le l = sortB le l' := by
  have hps : sortB le l' ~ l := (sortB_perm le l').trans hp.symm
  have hd' : (sortB le l').Pairwise (fun x y => ¬(le x y = true ∧ le y x = true)) :=
    (List.Perm.pairwise_iff (fun h hc => h ⟨hc.2, hc.1⟩) hps).mpr hd
  have hcs : (sortB le l').Pairwise (fun x y => le x y = true ∧ le y x = false) := by
    refine (pairwise_and (sortB_pairwise htot htrans l') hd').imp ?_
    rintro a b ⟨hab, hnt⟩
    refine ⟨hab, ?_⟩
    cases hba : le b a
    · rfl
    · exact absurd ⟨hab, hba⟩ hnt
  exact eq_of_perm_of_pairwise
    ((sortB_perm le l).trans (hp.trans (sortB_perm le l').symm))
    (sortB_pairwise htot htrans l) hcs

/-! ### Comparator facts -/

theorem snapKey_le_total (a b : SnapKey) :
    SnapKey.le a b = true ∨ SnapKey.le b a = true := by
  cases a <;> cases b <;> simp [SnapKey.le] <;> omega

theorem snapKey_le_trans (a b c : SnapKey) :
    SnapKey.le a b = true → SnapKey.le b c = true → SnapKey.le a c = true := by
  cases a <;> cases b <;> cases c <;> simp [SnapKey.le] <;> omega

theorem snapLe_total (a b : Str) : snapLe a b = true ∨ snapLe b a = true :=
  snapKey_le_total _ _

theorem snapLe_trans (a b c : Str) :
    snapLe a b = true → snapLe b c = true → snapLe a c = true :=
  snapKey_le_trans _ _ _

theorem pyStrLe_cons (a b : Char) (as bs : Str) :
    pyStrLe (a :: as) (b :: bs) =
      if a.toNat < b.toNat then true
      else if b.toNat < a.toNat then false
      else pyStrLe as bs := rfl

theorem pyStrLe_total : ∀ (a b : Str), pyStrLe a b = true ∨ pyStrLe b a = true
  | [], _ => Or.inl rfl
  | _ :: _, [] => Or.inr rfl
  | a :: as, b :: bs => by
    rw [pyStrLe_cons, pyStrLe_cons]
    by_cases h1 : a.toNat < b.toNat
    · left
      simp [h1]
    · by_cases h2 : b.toNat < a.toNat
      · right
        simp [h1, h2]
      · rcases pyStrLe_total as bs with h | h
        · left
          simp [h1, h2, h]
        · right
          simp [h1, h2, h]

theorem char_eq_of_toNat {a b : Char} (h : a.toNat = b.toNat) : a = b :=
  Char.ext (UInt32.toNat.inj h)

theorem pyStrLe_trans : ∀ (a b c : Str),
    pyStrLe a b = true → pyStrLe b c = true → pyStrLe a c = true
  | [], _, _ => fun _ _ => rfl
  | _ :: _, [], _ => fun h _ => by simp [pyStrLe] at h
  | _ :: _, _ :: _, [] => fun _ h => by simp [pyStrLe] at h
  | x :: xs, y :: ys, z :: zs => fun h1 h2 => by
    rw [pyStrLe_cons] at h1 h2 ⊢
    by_cases hxy : x.toNat < y.toNat
    · have hzy : ¬ z.toNat < y.toNat := by
        intro hzy
        rw [if_neg (by omega), if_pos hzy] at h2
        exact absurd h2 (by simp)
      rw [if_pos (by omega)]
    · by_cases hyx : y.toNat < x.toNat
      · rw [if_neg hxy, if_pos hyx] at h1
        exact absurd h1 (by simp)
      · by_cases hyz : y.toNat < z.toNat
        · rw [if_pos (by omega)]
        · by_cases hzy : z.toNat < y.toNat
          · rw [if_neg hyz, if_pos hzy] at h2
            exact absurd h2 (by simp)
          · rw [if_neg hxy, if_neg hyx] at h1
            rw [if_neg hyz, if_neg hzy] at h2
            rw [if_neg (by omega : ¬ x.toNat < z.toNat),
              if_neg (by omega : ¬ z.toNat < x.toNat)]
            exact pyStrLe_trans xs ys zs h1 h2

theorem pyStrLe_antisymm : ∀ (a b : Str),
    pyStrLe a b = true → pyStrLe b a = true → a = b
  | [], [] => fun _ _ => rfl
  | [], _ :: _ => fun _ h => by simp [pyStrLe] at h
  | _ :: _, [] => fun h _ => by simp [pyStrLe] at h
  | x :: xs, y :: ys => fun h1 h2 => by
    rw [pyStrLe_cons] at h1 h2
    by_cases hxy : x.toNat < y.toNat
    · rw [if_neg (by omega : ¬ y.toNat < x.toNat), if_pos hxy] at h2
      exact absurd h2 (by simp)
    · by_cases hyx : y.toNat < x.toNat
      · rw [if_neg hxy, if_pos hyx] at h1
        exact absurd h1 (by simp)
      · rw [if_neg hxy, if_neg hyx] at h1
        rw [if_neg hyx, if_neg hxy] at h2
        have hxy' : x = y := char_eq_of_toNat (by omega)
        rw [hxy', pyStrLe_antisymm xs ys h1 h2]

/-! ### Canonical snapshot inputs -/


theorem ne_of_head {c d : Char} {t u : List Char} (h : c ≠ d) : c :: t ≠ d :: u := by
  intro he
  injection he with h1 _
  exact h h1

theorem ne_of_second {c d e f : Char} {t u : List Char} (h : d ≠ f) :
    c :: d :: t ≠ e :: f :: u := by
  intro he
  injection he with h1 h2
  injection h2 with h3 _
  exact h h3

theorem natDecimal_head_digit (n : ℕ) :
    ∃ c t, natDecimal n = c :: t ∧ c.isDigit = true := by
  obtain ⟨hne, hmem⟩ := natDecimal_spec n
  cases hd : natDecimal n with
  | nil => exact absurd hd hne
  | cons c t =>
    refine ⟨c, t, rfl, ?_⟩
    exact (hmem c (by rw [hd]; simp)).1

theorem vNameL_ne_latest (n : ℕ) : vNameL n ≠ latestL := by
  rw [vNameL, latestL]
  exact ne_of_head (by decide)

theorem snapshot_key_vName (n : ℕ) :
    snapshot_key (vNameL n) = some (SnapKey.num n) := by
  have hne : vNameL n ≠ ("latest").toList := vNameL_ne_latest n
  rw [snapshot_key, if_neg hne]
  have h1 : (vNameL n).drop 1 = natDecimal n := rfl
  rw [h1, pyInt_natDecimal]
  rfl

theorem snapKeyTotal_vName (n : ℕ) : snapKeyTotal (vNameL n) = SnapKey.num n := by
  rw [snapKeyTotal, snapshot_key_vName]
  rfl

theorem snapshot_key_latest : snapshot_key latestL = some SnapKey.inf := by
  rw [snapshot_key, if_pos (show latestL = ("latest").toList from rfl)]

theorem snapKeyTotal_latest : snapKeyTotal latestL = SnapKey.inf := by
  rw [snapKeyTotal, snapshot_key_latest]
  rfl

theorem isSnapshotName_vName (n : ℕ) : isSnapshotName (vNameL n) = true := by
  obtain ⟨c, t, hct, hdig⟩ := natDecimal_head_digit n
  have h1 : isSnapshotName (vNameL n) =
      (((("latest").toList).isPrefixOf ('v' :: c :: t)) || c.isDigit) := by
    rw [vNameL, hct]
    rfl
  rw [h1, hdig, Bool.or_true]

theorem isSnapshotName_latest : isSnapshotName latestL = true := by decide

theorem vNameL_not_mem_NOT_A_CUT (n : ℕ) : vNameL n ∉ NOT_A_CUT := by
  obtain ⟨c, t, hct, hdig⟩ := natDecimal_head_digit n
  have hc : c ≠ 'e' := by
    intro h
    rw [h] at hdig
    exact absurd hdig (by decide)
  intro hmem
  rw [NOT_A_CUT, vNameL, hct] at hmem
  simp only [List.mem_cons, List.not_mem_nil, or_false] at hmem
  rcases hmem with h | h | h | h | h
  · exact absurd h (ne_of_head (by decide))
  · exact absurd h (ne_of_head (by decide))
  · exact absurd h (ne_of_head (by decide))
  · exact absurd h (ne_of_head (by decide))
  · exact absurd h (ne_of_second hc)

theorem latest_not_mem_NOT_A_CUT : latestL ∉ NOT_A_CUT := by decide

theorem contains_eq_false_of_not_mem {l : List Str} {s : Str} (h : s ∉ l) :
    l.contains s = false := by
  cases hc : l.contains s
  · rfl
  · rw [List.contains_iff_exists_mem_beq] at hc
    obtain ⟨a, ha, hb⟩ := hc
    rw [beq_iff_eq] at hb
    rw [hb] at h
    exact absurd ha h

/-! ### Walk and fold lemmas -/

theorem mapM_orErr_ok {β : Type} {f : α → Option β} {g : α → β} {e : Str}
    (l : List α) (h : ∀ a ∈ l, f a = some (g a)) :
    l.mapM (fun a => orErr (f a) e) = Except.ok (l.map g) := by
  induction l with
  | nil => rfl
  | cons a t ih =>
    rw [List.mapM_cons, h a (List.mem_cons_self a t)]
    have ht := ih (fun x hx => h x (List.mem_cons_of_mem a hx))
    rw [show (fun a => orErr (f a) e) = fun a => orErr (f a) e from rfl] at ht
    rw [ht]
    rfl

theorem walkSnapshots_append_nonlatest (l : List Str) :
    ∀ (l2 : List Str) (acc : List Cut),
    (∀ s ∈ l, s ≠ ("latest").toList) →
    walkSnapshots (l ++ l2) acc =
      walkSnapshots l2 (acc ++ l.map (fun s => ⟨s.drop 1, none, s⟩)) := by
  induction l with
  | nil =>
    intro l2 acc _
    simp
  | cons s t ih =>
    intro l2 acc h
    rw [List.cons_append]
    show walkSnapshots (s :: (t ++ l2)) acc = _
    rw [walkSnapshots.eq_def]
    dsimp only
    rw [if_neg (h s (List.mem_cons_self s t))]
    have ha : (acc ++ [(⟨s.drop 1, none, s⟩ : Cut)]) ++
        (t.map fun x => (⟨x.drop 1, none, x⟩ : Cut)) =
        acc ++ ((s :: t).map fun x => (⟨x.drop 1, none, x⟩ : Cut)) := by
      rw [List.map_cons, List.append_assoc]
      rfl
    rw [← ha]
    exact ih l2 _ (fun x hx => h x (List.mem_cons_of_mem s hx))

theorem mapM_pyInt_vCuts (l : List ℕ) :
    (l.map vCut).mapM (fun c => orErr (pyInt c.version) intErr) = Except.ok l := by
  have h := mapM_orErr_ok (f := fun c : Cut => pyInt c.version)
    (g := fun c : Cut => natVal c.version) (e := intErr) (l.map vCut) ?_
  · rw [h, List.map_map]
    congr 1
    have : ∀ n ∈ l, ((fun c : Cut => natVal c.version) ∘ vCut) n = n := by
      intro n _
      show natVal (natDecimal n) = n
      exact natVal_natDecimal n
    rw [List.map_congr_left this]
    exact List.map_id l
  · intro a ha
    obtain ⟨n, _, rfl⟩ := List.mem_map.mp ha
    show pyInt (natDecimal n) = some (natVal (natDecimal n))
    rw [pyInt_natDecimal, natVal_natDecimal]

theorem pyMaxList_cons (v w : ℕ) (ws : List ℕ) :
    pyMaxList v (w :: ws) = pyMaxList (max v w) ws := rfl

theorem pyMaxList_spec (vs : List ℕ) :
    ∀ v, (pyMaxList v vs = v ∨ pyMaxList v vs ∈ vs) ∧
      v ≤ pyMaxList v vs ∧ ∀ x ∈ vs, x ≤ pyMaxList v vs := by
  induction vs with
  | nil =>
    intro v
    exact ⟨Or.inl rfl, Nat.le_refl v, by simp⟩
  | cons w ws ih =>
    intro v
    rw [pyMaxList_cons]
    obtain ⟨h1, h2, h3⟩ := ih (max v w)
    refine ⟨?_, ?_, ?_⟩
    · rcases h1 with h | h
      · rcases max_choice v w with hm | hm
        · left
          rw [h, hm]
        · right
          rw [h, hm]
          exact List.mem_cons_self w ws
      · exact Or.inr (List.mem_cons_of_mem w h)
    · exact Nat.le_trans (Nat.le_max_left v w) h2
    · intro x hx
      rcases List.mem_cons.mp hx with rfl | hx
      · exact Nat.le_trans (Nat.le_max_right v x) h2
      · exact h3 x hx

theorem maxOf_spec {l : List ℕ} (h : l ≠ []) :
    maxOf l ∈ l ∧ ∀ x ∈ l, x ≤ maxOf l := by
  cases l with
  | nil => exact absurd rfl h
  | cons v vs =>
    obtain ⟨h1, h2, h3⟩ := pyMaxList_spec vs v
    constructor
    · show pyMaxList v vs ∈ v :: vs
      rcases h1 with h | h
      · rw [h]
        exact List.mem_cons_self v vs
      · exact List.mem_cons_of_mem v h
    · intro x hx
      rcases List.mem_cons.mp hx with rfl | hx
      · exact h2
      · exact h3 x hx

theorem maxOf_perm {l l' : List ℕ} (hp : l ~ l') (h : l ≠ []) :
    maxOf l = maxOf l' := by
  have h' : l' ≠ [] := by
    intro he
    rw [he] at hp
    exact h hp.eq_nil
  obtain ⟨m1, b1⟩ := maxOf_spec h
  obtain ⟨m2, b2⟩ := maxOf_spec h'
  exact Nat.le_antisymm (b2 _ (hp.mem_iff.mp m1)) (b1 _ (hp.symm.mem_iff.mp m2))

/-! ### Discovery of canonical snapshot sets -/


theorem natLeB_total (a b : ℕ) : natLeB a b = true ∨ natLeB b a = true := by
  rcases Nat.le_total a b with h | h
  · left
    simp [natLeB, h]
  · right
    simp [natLeB, h]

theorem natLeB_trans (a b c : ℕ) :
    natLeB a b = true → natLeB b c = true → natLeB a c = true := by
  simp only [natLeB, decide_eq_true_eq]
  omega

theorem walkSnapshots_nil (acc : List Cut) : walkSnapshots [] acc = Except.ok acc := rfl

theorem walkSnapshots_latest_step (acc : List Cut) (rest : List Str)
    (v : ℕ) (vs : List ℕ)
    (hm : acc.mapM (fun c => orErr (pyInt c.version) intErr) = Except.ok (v :: vs)) :
    walkSnapshots (latestL :: rest) acc =
      walkSnapshots rest
        (acc ++ [⟨natDecimal (1 + pyMaxList v vs), none, ("latest").toList⟩]) := by
  rw [walkSnapshots.eq_def]
  dsimp only
  rw [if_pos (show latestL = ("latest").toList from rfl), hm]

theorem discover_cuts_eq_ok {stems : List Str} {keys : List SnapKey} {scuts : List Cut}
    (h1 : (snapshotStems stems).mapM (fun s => orErr (snapshot_key s) intErr) =
      Except.ok keys)
    (h2 : walkSnapshots (sortB snapLe (snapshotStems stems)) [] = Except.ok scuts) :
    discover_cuts stems =
      Except.ok (scuts ++ featureCuts (sortB pyStrLe (featureStems stems))) := by
  rw [discover_cuts.eq_def, h1]
  dsimp only
  rw [h2]

theorem discover_cuts_vnats (nats : List ℕ) (stems : List Str)
    (hnd : nats.Nodup) (hne : nats ≠ [])
    (hp : stems ~ latestL :: nats.map vNameL) :
    discover_cuts stems =
      Except.ok ((sortNat nats).map vCut ++ [latestCut (1 + maxOf nats)]) := by
  have hmem : ∀ s ∈ stems, s = latestL ∨ ∃ n, n ∈ nats ∧ s = vNameL n := by
    intro s hs
    have hs2 := hp.mem_iff.mp hs
    rcases List.mem_cons.mp hs2 with h | h
    · exact Or.inl h
    · obtain ⟨n, hn, rfl⟩ := List.mem_map.mp h
      exact Or.inr ⟨n, hn, rfl⟩
  have hcand : cutCandidates stems = stems := by
    rw [cutCandidates, List.filter_eq_self]
    intro s hs
    rcases hmem s hs with rfl | ⟨n, _, rfl⟩
    · rw [contains_eq_false_of_not_mem latest_not_mem_NOT_A_CUT]
      rfl
    · rw [contains_eq_false_of_not_mem (vNameL_not_mem_NOT_A_CUT n)]
      rfl
  have hsnap : snapshotStems stems = stems := by
    rw [snapshotStems, hcand, List.filter_eq_self]
    intro s hs
    rcases hmem s hs with rfl | ⟨n, _, rfl⟩
    · exact isSnapshotName_latest
    · exact isSnapshotName_vName n
  have hfeat : featureStems stems = [] := by
    rw [featureStems, hcand]
    rw [List.filter_eq_nil]
    intro s hs
    rcases hmem s hs with rfl | ⟨n, _, rfl⟩
    · simp [isSnapshotName_latest]
    · simp [isSnapshotName_vName n]
  have hkeys : (snapshotStems stems).mapM (fun s => orErr (snapshot_key s) intErr) =
      Except.ok ((snapshotStems stems).map snapKeyTotal) := by
    apply mapM_orErr_ok
    intro s hs
    rw [hsnap] at hs
    rcases hmem s hs with rfl | ⟨n, _, rfl⟩
    · rw [snapshot_key_latest, snapKeyTotal_latest]
    · rw [snapshot_key_vName, snapKeyTotal_vName]
  have hsorted_nats : (sortNat nats).Pairwise (· < ·) := by
    have h1 := sortB_pairwise natLeB_total natLeB_trans nats
    have h2 : (sortNat nats).Nodup := (sortB_perm natLeB nats).nodup_iff.mpr hnd
    refine (pairwise_and h1 h2).imp ?_
    rintro a b ⟨hab, hne'⟩
    have hab' : a ≤ b := by simpa [natLeB] using hab
    omega
  have hcanon : ((sortNat nats).map vNameL ++ [latestL]).Pairwise
      (fun x y => snapLe x y = true ∧ snapLe y x = false) := by
    rw [List.pairwise_append]
    refine ⟨?_, ?_, ?_⟩
    · rw [List.pairwise_map]
      refine hsorted_nats.imp ?_
      intro a b hab
      constructor
      · rw [snapLe, snapKeyTotal_vName, snapKeyTotal_vName]
        show (decide (a ≤ b)) = true
        simp only [decide_eq_true_eq]
        omega
      · rw [snapLe, snapKeyTotal_vName, snapKeyTotal_vName]
        show (decide (b ≤ a)) = false
        simp only [decide_eq_false_iff_not]
        omega
    · simp
    · intro x hx y hy
      rw [List.mem_singleton] at hy
      subst hy
      obtain ⟨n, _, rfl⟩ := List.mem_map.mp hx
      constructor
      · rw [snapLe, snapKeyTotal_vName, snapKeyTotal_latest]
        rfl
      · rw [snapLe, snapKeyTotal_latest, snapKeyTotal_vName]
        rfl
  have hperm2 : stems ~ (sortNat nats).map vNameL ++ [latestL] := by
    refine hp.trans ?_
    have h1 : nats.map vNameL ~ (sortNat nats).map vNameL :=
      ((sortB_perm natLeB nats).symm).map vNameL
    refine (h1.cons latestL).trans ?_
    exact (List.perm_append_singleton latestL _).symm
  have hsort : sortB snapLe stems = (sortNat nats).map vNameL ++ [latestL] :=
    sortB_eq_canonical snapLe_total snapLe_trans hperm2 hcanon
  have hsne : sortNat nats ≠ [] := by
    intro he
    have h1 : nats ~ sortNat nats := (sortB_perm natLeB nats).symm
    rw [he] at h1
    exact hne h1.eq_nil
  obtain ⟨v, vs, hvs⟩ : ∃ v vs, sortNat nats = v :: vs := by
    cases hsn : sortNat nats with
    | nil => exact absurd hsn hsne
    | cons v vs => exact ⟨v, vs, rfl⟩
  have hmax : pyMaxList v vs = maxOf nats := by
    have h1 : maxOf (sortNat nats) = maxOf nats :=
      maxOf_perm (sortB_perm natLeB nats) hsne
    rw [← h1, hvs]
    rfl
  have hmapcut : ((sortNat nats).map vNameL).map
      (fun s => (⟨s.drop 1, none, s⟩ : Cut)) = (sortNat nats).map vCut := by
    rw [List.map_map]
    apply List.map_congr_left
    intro n _
    rfl
  have hwalk : walkSnapshots (sortB snapLe (snapshotStems stems)) [] =
      Except.ok ((sortNat nats).map vCut ++ [latestCut (1 + maxOf nats)]) := by
    rw [hsnap, hsort]
    rw [walkSnapshots_append_nonlatest _ [latestL] []
      (by
        intro s hs
        obtain ⟨n, _, rfl⟩ := List.mem_map.mp hs
        exact vNameL_ne_latest n)]
    rw [List.nil_append, hmapcut]
    rw [walkSnapshots_latest_step _ _ v vs (by rw [← hvs] at *; exact mapM_pyInt_vCuts _)]
    rw [walkSnapshots_nil, hmax]
    rfl
  rw [discover_cuts_eq_ok hkeys hwalk, hfeat]
  rw [show featureCuts (sortB pyStrLe []) = [] from rfl, List.append_nil]

/-! ### Registry decomposition -/

theorem walkSnapshots_feature_none :
    ∀ (l : List Str) (acc : List Cut) (cuts : List Cut),
      (∀ c ∈ acc, c.feature = none) →
      walkSnapshots l acc = Except.ok cuts →
      ∀ c ∈ cuts, c.feature = none := by
  intro l
  induction l with
  | nil =>
    intro acc cuts hacc h
    rw [walkSnapshots_nil] at h
    injection h with h1
    intro c hc
    exact hacc c (h1 ▸ hc)
  | cons s t ih =>
    intro acc cuts hacc h
    rw [walkSnapshots.eq_def] at h
    dsimp only at h
    split at h
    · split at h
      · exact absurd h (by simp)
      · exact absurd h (by simp)
      · refine ih _ _ ?_ h
        intro c hc
        rcases List.mem_append.mp hc with hc | hc
        · exact hacc c hc
        · rw [List.mem_singleton] at hc
          subst hc
          rfl
    · refine ih _ _ ?_ h
      intro c hc
      rcases List.mem_append.mp hc with hc | hc
      · exact hacc c hc
      · rw [List.mem_singleton] at hc
        subst hc
        rfl

theorem discover_cuts_split {stems : List Str} {cuts : List Cut}
    (h : discover_cuts stems = Except.ok cuts) :
    ∃ scuts, cuts = scuts ++ featureCuts (sortB pyStrLe (featureStems stems)) ∧
      ∀ c ∈ scuts, c.feature = none := by
  rw [discover_cuts.eq_def] at h
  split at h
  · exact absurd h (by simp)
  · split at h
    · exact absurd h (by simp)
    · next scuts hw =>
      refine ⟨scuts, ?_, ?_⟩
      · injection h with h1
        exact h1.symm
      · exact walkSnapshots_feature_none _ [] scuts (by simp) hw

theorem featureCuts_length (l : List Str) : (featureCuts l).length = l.length := by
  rw [featureCuts]
  simp

theorem featureCuts_all_some (l : List Str) :
    ∀ c ∈ featureCuts l, c.feature.isSome = true := by
  intro c hc
  rw [featureCuts] at hc
  obtain ⟨p, _, rfl⟩ := List.mem_map.mp hc
  rfl

theorem filter_isSome_discover {stems : List Str} {cuts : List Cut}
    (h : discover_cuts stems = Except.ok cuts) :
    cuts.filter (fun c => c.feature.isSome) =
      featureCuts (sortB pyStrLe (featureStems stems)) := by
  obtain ⟨scuts, rfl, hnone⟩ := discover_cuts_split h
  rw [List.filter_append]
  have h1 : scuts.filter (fun c => c.feature.isSome) = [] := by
    rw [List.filter_eq_nil]
    intro c hc
    rw [hnone c hc]
    simp
  have h2 : (featureCuts (sortB pyStrLe (featureStems stems))).filter
      (fun c => c.feature.isSome) = featureCuts (sortB pyStrLe (featureStems stems)) := by
    rw [List.filter_eq_self]
    exact featureCuts_all_some _
  rw [h1, h2, List.nil_append]

theorem featureCuts_map_version (l : List Str) :
    (featureCuts l).map Cut.version = (List.range l.length).map featVersion := by
  rw [featureCuts, List.map_map]
  have h1 : (Cut.version ∘ fun p : ℕ × Str =>
      (⟨featVersion p.1, some (pyUpper p.2), p.2⟩ : Cut)) =
      (fun p : ℕ × Str => featVersion p.1) := rfl
  rw [h1]
  have h2 : (fun p : ℕ × Str => featVersion p.1) =
      (featVersion ∘ Prod.fst) := rfl
  rw [h2, ← List.map_map, List.enum_map_fst]

theorem featureCuts_map_module (l : List Str) :
    (featureCuts l).map Cut.module = l := by
  rw [featureCuts, List.map_map]
  have h1 : (Cut.module ∘ fun p : ℕ × Str =>
      (⟨featVersion p.1, some (pyUpper p.2), p.2⟩ : Cut)) =
      (Prod.snd : ℕ × Str → Str) := rfl
  rw [h1, List.enum_map_snd]

theorem featureCuts_get_version (l : List Str) (i : ℕ)
    (hi : i < (featureCuts l).length) :
    ((featureCuts l).get ⟨i, hi⟩).version = featVersion i := by
  simp [featureCuts, List.get_eq_getElem, List.getElem_map, List.getElem_enum]

theorem featureCuts_get_version_fin (l : List Str) (i : Fin (featureCuts l).length) :
    ((featureCuts l).get i).version = featVersion i.val := by
  obtain ⟨i, hi⟩ := i
  exact featureCuts_get_version l i hi

theorem natDecimal_length_pos (n : ℕ) : 0 < (natDecimal n).length := by
  obtain ⟨hne, _⟩ := natDecimal_spec n
  cases hd : natDecimal n with
  | nil => exact absurd hd hne
  | cons c t => simp [hd]

theorem featVersion_injective {i j : ℕ} (h : featVersion i = featVersion j) : i = j := by
  by_cases hi : i = 0
  · by_cases hj : j = 0
    · rw [hi, hj]
    · rw [featVersion, featVersion, if_pos hi, if_neg hj] at h
      have hl := congrArg List.length h
      rw [List.length_append] at hl
      have := natDecimal_length_pos j
      simp at hl
      omega
  · by_cases hj : j = 0
    · rw [featVersion, featVersion, if_neg hi, if_pos hj] at h
      have hl := congrArg List.length h
      rw [List.length_append] at hl
      have := natDecimal_length_pos i
      simp at hl
      omega
    · rw [featVersion, featVersion, if_neg hi, if_neg hj] at h
      exact natDecimal_injective (List.append_cancel_left h)

/-! ### Claims C1 to C4, C6, C7 -/

/-- C1 (counterexample): with zero snapshot modules and feature modules
`b` and `a`, the registry gives `u64::MAX` to `a`, not to `b` — creation
timestamps play no role, so the module created first (`b`) receives
`u64::MAX - 1` whatever the creation order was. -/
theorem C1_counterexample :
    discover_cuts [("b").toList, ("a").toList] =
      Except.ok [⟨("u64::MAX").toList, some (("A").toList), ("a").toList⟩,
        ⟨("u64::MAX - 1").toList, some (("B").toList), ("b").toList⟩] ∧
    (⟨("u64::MAX - 1").toList, some (("B").toList), ("b").toList⟩ : Cut).version ≠
      ("u64::MAX").toList := by
  constructor
  · decide
  · decide

/-- C1 (amended): feature cuts are ordered by module name ascending only
(Python string order); the registry is a function of the stem set alone, so
creation timestamps cannot influence it.  With feature modules `b` and `a`,
`a` receives `u64::MAX` (constant `A`) and `b` receives `u64::MAX - 1`
(constant `B`), in either listing order. -/
theorem C1_amended :
    (∀ (stems : List Str) (cuts : List Cut), discover_cuts stems = Except.ok cuts →
      (cuts.filter (fun c => c.feature.isSome)).map Cut.module =
        sortB pyStrLe (featureStems stems)) ∧
    discover_cuts [("b").toList, ("a").toList] =
      Except.ok [⟨("u64::MAX").toList, some (("A").toList), ("a").toList⟩,
        ⟨("u64::MAX - 1").toList, some (("B").toList), ("b").toList⟩] ∧
    discover_cuts [("a").toList, ("b").toList] =
      discover_cuts [("b").toList, ("a").toList] := by
  refine ⟨?_, by decide, by decide⟩
  intro stems cuts h
  rw [filter_isSome_discover h, featureCuts_map_module]

/-- C1 (witness): the amended ordering statement evaluated on the feature
modules `b`, `a`. -/
theorem C1_witness :
    (([⟨("u64::MAX").toList, some (("A").toList), ("a").toList⟩,
        ⟨("u64::MAX - 1").toList, some (("B").toList), ("b").toList⟩] : List Cut).filter
        (fun c => c.feature.isSome)).map Cut.module =
      sortB pyStrLe (featureStems [("b").toList, ("a").toList]) :=
  C1_amended.1 [("b").toList, ("a").toList] _ (by decide)

/-- C2 (counterexample): when `latest` is the only snapshot module the code
does not assign version 0 — `max()` over the empty sequence of previously
assigned versions raises `ValueError`. -/
theorem C2_counterexample :
    discover_cuts [("latest").toList] = Except.error maxErr := by decide

/-- C2 (amended): for every snapshot set `latest` together with a nonempty
set of `v<digits>` modules, `latest` is assigned `1 + max` of the other
snapshot versions without error; when `latest` is the only snapshot module
the code raises `ValueError` instead of assigning 0. -/
theorem C2_amended :
    (∀ (nats : List ℕ) (stems : List Str), nats.Nodup → nats ≠ [] →
      stems ~ latestL :: nats.map vNameL →
      discover_cuts stems =
        Except.ok ((sortNat nats).map vCut ++ [latestCut (1 + maxOf nats)])) ∧
    discover_cuts [("latest").toList] = Except.error maxErr := by
  refine ⟨?_, by decide⟩
  intro nats stems h1 h2 h3
  exact discover_cuts_vnats nats stems h1 h2 h3

/-- C2 (witness): `v0`, `v2` and `latest` — `latest` receives
`1 + max(0, 2) = 3`. -/
theorem C2_witness :
    discover_cuts [("v2").toList, ("latest").toList, ("v0").toList] =
      Except.ok [⟨("0").toList, none, ("v0").toList⟩,
        ⟨("2").toList, none, ("v2").toList⟩,
        ⟨("3").toList, none, ("latest").toList⟩] := by
  have h := C2_amended.1 [2, 0] [("v2").toList, ("latest").toList, ("v0").toList]
    (by decide) (by decide) (by decide)
  exact h.trans (by decide)

/-- C3: the classifier regex is anchored only at the start, so the name
`v1x` (not of the whole-name form `latest` or `v<digits>`) is classified
as a snapshot, and `int("1x")` then raises `ValueError` — contradicting
the contract that classification raises no error and defaults unmatched
names to features. -/
theorem C3_code_bug :
    specSnapshotNameOk (("v1x").toList) = false ∧
    isSnapshotName (("v1x").toList) = true ∧
    discover_cuts [("v1x").toList] = Except.error intErr := by
  refine ⟨by decide, by decide, by decide⟩

/-- C4 (counterexample): snapshot versions are the literal ordinals of the
names, not a contiguous renumbering: `v0`, `v5`, `latest` yields versions
0, 5, 6 — not the contiguous range 0..=2 the claim asserts for three
snapshot cuts. -/
theorem C4_counterexample :
    discover_cuts [("v0").toList, ("v5").toList, ("latest").toList] =
      Except.ok [⟨("0").toList, none, ("v0").toList⟩,
        ⟨("5").toList, none, ("v5").toList⟩,
        ⟨("6").toList, none, ("latest").toList⟩] ∧
    ¬ (([("0").toList, ("5").toList, ("6").toList] : List Str).Perm
        ((List.range 3).map natDecimal)) := by
  constructor
  · decide
  · decide

/-- C4 (amended): when the snapshot modules are exactly `v0 … v(k-1)` and
`latest` (k ≥ 1), the assigned versions do form the contiguous range
`0..=k` and `latest` receives `k`; in general each `v<n>` keeps its literal
ordinal `n` and `latest` receives one more than the maximum ordinal, so
contiguity holds only for gap-free ordinals (and `latest` alone errors). -/
theorem C4_amended (k : ℕ) (stems : List Str) (hk : 1 ≤ k)
    (hp : stems ~ latestL :: (List.range k).map vNameL) :
    discover_cuts stems =
      Except.ok (((List.range k).map vCut) ++ [latestCut k]) ∧
    (((List.range k).map vCut) ++ [latestCut k]).map Cut.version =
      (List.range (k + 1)).map natDecimal := by
  have hne : List.range k ≠ [] := by
    intro h
    rw [List.range_eq_nil] at h
    omega
  have hmain := discover_cuts_vnats (List.range k) stems (List.nodup_range k) hne hp
  have hsort : sortNat (List.range k) = List.range k := by
    apply sortB_eq_canonical natLeB_total natLeB_trans (List.Perm.refl _)
    refine (List.pairwise_lt_range k).imp ?_
    intro a b hab
    constructor
    · simp only [natLeB, decide_eq_true_eq]
      omega
    · simp only [natLeB, decide_eq_false_iff_not]
      omega
  have hmax : maxOf (List.range k) = k - 1 := by
    obtain ⟨hm, hb⟩ := maxOf_spec hne
    have h1 : maxOf (List.range k) < k := List.mem_range.mp hm
    have h2 : k - 1 ≤ maxOf (List.range k) :=
      hb (k - 1) (List.mem_range.mpr (by omega))
    omega
  constructor
  · rw [hmain, hsort, hmax, show 1 + (k - 1) = k from by omega]
  · rw [List.map_append]
    have h1 : ((List.range k).map vCut).map Cut.version =
        (List.range k).map natDecimal := by
      rw [List.map_map]
      rfl
    rw [h1, List.range_succ, List.map_append]
    rfl

/-- C4 (witness): `v0`, `v1`, `latest` yields the contiguous versions
0, 1, 2 with `latest` receiving 2. -/
theorem C4_witness :
    discover_cuts [("v1").toList, ("latest").toList, ("v0").toList] =
      Except.ok [⟨("0").toList, none, ("v0").toList⟩,
        ⟨("1").toList, none, ("v1").toList⟩,
        ⟨("2").toList, none, ("latest").toList⟩] := by
  have h := (C4_amended 2 [("v1").toList, ("latest").toList, ("v0").toList]
    (by omega) (by decide)).1
  exact h.trans (by decide)

/-- C6: the argparse validator uses `re.match` without anchoring the end,
so any string with a lowercase first letter is accepted — `abc-def`, which
is not a lowercase-leading identifier as a whole (the spec's definition),
passes validation instead of being rejected. -/
theorem C6_code_bug :
    specFeatureNameOk (("abc-def").toList) = false ∧
    feature (("abc-def").toList) = Except.ok (("abc-def").toList) := by
  refine ⟨by decide, by decide⟩

/-- C7: the feature entries of every successfully built registry carry, in
assignment order, exactly the version strings `u64::MAX`, `u64::MAX - 1`,
…; those strings are pairwise distinct, the first is `u64::MAX`, and the
denoted values `2^64 - 1 - i` are strictly decreasing. -/
theorem C7_feature_versions (stems : List Str) (cuts : List Cut)
    (h : discover_cuts stems = Except.ok cuts) :
    ((cuts.filter (fun c => c.feature.isSome)).map Cut.version =
      (List.range (cuts.filter (fun c => c.feature.isSome)).length).map featVersion) ∧
    ((cuts.filter (fun c => c.feature.isSome)).map Cut.version).Nodup ∧
    (∀ h0 : 0 < (cuts.filter (fun c => c.feature.isSome)).length,
      ((cuts.filter (fun c => c.feature.isSome)).get ⟨0, h0⟩).version =
        ("u64::MAX").toList) ∧
    (∀ i j : ℕ, i < j → featValue j < featValue i) ∧
    featValue 0 = (2 : ℤ) ^ 64 - 1 := by
  have hfe := filter_isSome_discover h
  have hmap : (cuts.filter (fun c => c.feature.isSome)).map Cut.version =
      (List.range (cuts.filter (fun c => c.feature.isSome)).length).map featVersion := by
    rw [hfe, featureCuts_map_version, featureCuts_length]
  refine ⟨hmap, ?_, ?_, ?_, ?_⟩
  · rw [hmap]
    exact List.Nodup.map (fun a b hab => featVersion_injective hab) (List.nodup_range _)
  · intro h0
    have he := List.get_of_eq hfe ⟨0, h0⟩
    rw [he, featureCuts_get_version_fin]
    rfl
  · intro i j hij
    rw [featValue, featValue]
    have : (i : ℤ) < (j : ℤ) := by exact_mod_cast hij
    omega
  · simp [featValue]

/-- C7 (witness): the distinctness clause evaluated on the registry built
from feature modules `b`, `a`. -/
theorem C7_witness :
    ((([⟨("u64::MAX").toList, some (("A").toList), ("a").toList⟩,
        ⟨("u64::MAX - 1").toList, some (("B").toList), ("b").toList⟩] : List Cut).filter
        (fun c => c.feature.isSome)).map Cut.version).Nodup :=
  (C7_feature_versions [("b").toList, ("a").toList] _ (by decide)).2.1

/-! ### Lines and directive-pattern characterization -/

theorem splitNl_ne_nil (s : Str) : splitNl s ≠ [] := by
  cases s with
  | nil => simp [splitNl]
  | cons c cs =>
    rw [splitNl]
    split
    · simp
    · split
      · simp
      · simp

theorem splitNl_nl (cs : Str) : splitNl ('\n' :: cs) = [] :: splitNl cs := by
  rw [splitNl]
  simp

theorem splitNl_cons {c : Char} (h : c ≠ '\n') (cs : Str) :
    splitNl (c :: cs) = (c :: (splitNl cs).headI) :: (splitNl cs).tail := by
  rw [splitNl, if_neg h]
  cases hs : splitNl cs with
  | nil => exact absurd hs (splitNl_ne_nil cs)
  | cons l ls => simp

theorem mem_tail_mem {l : List α} {a : α} (h : a ∈ l.tail) : a ∈ l := by
  cases l with
  | nil => simp at h
  | cons x xs => exact List.mem_cons_of_mem x h

theorem splitNl_append_nl {a : Str} (ha : ∀ c ∈ a, c ≠ '\n') (b : Str) :
    splitNl (a ++ '\n' :: b) = a :: splitNl b := by
  induction a with
  | nil =>
    rw [List.nil_append, splitNl_nl]
  | cons c t ih =>
    rw [List.cons_append, splitNl_cons (ha c (by simp)) _,
      ih (fun x hx => ha x (by simp [hx]))]
    simp

theorem splitNl_of_noNl {a : Str} (ha : ∀ c ∈ a, c ≠ '\n') : splitNl a = [a] := by
  induction a with
  | nil => rfl
  | cons c t ih =>
    rw [splitNl_cons (ha c (by simp)) _, ih (fun x hx => ha x (by simp [hx]))]
    simp

theorem splitNl_head_decomp (s : Str) :
    ∃ r, s = (splitNl s).headI ++ r ∧ (r = [] ∨ ∃ r2, r = '\n' :: r2) := by
  induction s with
  | nil => exact ⟨[], rfl, Or.inl rfl⟩
  | cons c cs ih =>
    by_cases hc : c = '\n'
    · subst hc
      rw [splitNl_nl]
      exact ⟨'\n' :: cs, rfl, Or.inr ⟨cs, rfl⟩⟩
    · obtain ⟨r, hr1, hr2⟩ := ih
      rw [splitNl_cons hc]
      refine ⟨r, ?_, hr2⟩
      simp only [List.headI_cons, List.cons_append]
      rw [← hr1]

theorem takeWhile_append_not (p : Char → Bool) (a b : Str)
    (ha : ∀ c ∈ a, p c = true)
    (hb : ∀ c, b.head? = some c → p c = false) :
    (a ++ b).takeWhile p = a ∧ (a ++ b).dropWhile p = b := by
  induction a with
  | nil =>
    rw [List.nil_append]
    cases b with
    | nil => exact ⟨rfl, rfl⟩
    | cons c t =>
      rw [List.takeWhile_cons, List.dropWhile_cons, hb c rfl]
      simp
  | cons c t ih =>
    obtain ⟨ih1, ih2⟩ := ih (fun x hx => ha x (by simp [hx]))
    rw [List.cons_append, List.takeWhile_cons, List.dropWhile_cons,
      ha c (by simp)]
    simp [ih1, ih2]

theorem dropWhile_eq_nil_of (p : Char → Bool) (l : Str)
    (h : ∀ c ∈ l, p c = true) : l.dropWhile p = [] := by
  induction l with
  | nil => rfl
  | cons c t ih =>
    rw [List.dropWhile_cons, h c (by simp)]
    simp [ih (fun x hx => h x (by simp [hx]))]

theorem dirMatch_decomp {s spc var rest : Str}
    (h : dirMatch s = some (spc, var, rest)) :
    s = spc ++ dirMark ++ var ++ rest ∧
    (∀ c ∈ spc, isPySpace c = true) ∧ var ≠ [] ∧
    (∀ c ∈ var, isVarChar c = true) ∧
    (rest = [] ∨ rest.head? = some '\n') := by
  unfold dirMatch at h
  simp only at h
  by_cases hp : dirMark.isPrefixOf (s.dropWhile isPySpace) = true
  case neg =>
    rw [if_neg hp] at h
    exact absurd h (by simp)
  rw [if_pos hp] at h
  obtain ⟨t, ht⟩ := List.isPrefixOf_iff_prefix.mp hp
  have hdrop : (s.dropWhile isPySpace).drop 4 = t := by
    rw [← ht]
    exact List.drop_left dirMark t
  rw [hdrop] at h
  by_cases hv : (t.takeWhile isVarChar).isEmpty = true
  case pos =>
    rw [if_pos hv] at h
    exact absurd h (by simp)
  rw [if_neg hv] at h
  by_cases ho : ((t.dropWhile isVarChar).isEmpty ||
      decide ((t.dropWhile isVarChar).head? = some '\n')) = true
  case neg =>
    rw [if_neg ho] at h
    exact absurd h (by simp)
  rw [if_pos ho] at h
  simp only [Option.some.injEq, Prod.mk.injEq] at h
  obtain ⟨h1, h2, h3⟩ := h
  refine ⟨?_, ?_, ?_, ?_, ?_⟩
  · rw [← h1, ← h2, ← h3]
    calc s = s.takeWhile isPySpace ++ s.dropWhile isPySpace :=
        (List.takeWhile_append_dropWhile isPySpace s).symm
      _ = s.takeWhile isPySpace ++ (dirMark ++ t) := by rw [ht]
      _ = s.takeWhile isPySpace ++
          (dirMark ++ (t.takeWhile isVarChar ++ t.dropWhile isVarChar)) := by
        rw [List.takeWhile_append_dropWhile]
      _ = s.takeWhile isPySpace ++ dirMark ++ t.takeWhile isVarChar ++
          t.dropWhile isVarChar := by
        simp [List.append_assoc]
  · intro c hc
    rw [← h1] at hc
    exact List.mem_takeWhile_imp hc
  · rw [← h2]
    simpa using hv
  · intro c hc
    rw [← h2] at hc
    exact List.mem_takeWhile_imp hc
  · rw [← h3]
    rcases Bool.or_eq_true_iff.mp ho with hz | hz
    · exact Or.inl (by simpa using hz)
    · exact Or.inr (by simpa using hz)

theorem dirMatch_of_decomp {spc var rest : Str}
    (hspc : ∀ c ∈ spc, isPySpace c = true) (hvar : var ≠ [])
    (hvarc : ∀ c ∈ var, isVarChar c = true)
    (hrest : rest = [] ∨ rest.head? = some '\n') :
    dirMatch (spc ++ dirMark ++ var ++ rest) = some (spc, var, rest) := by
  have hmark : ∀ c, (dirMark ++ var ++ rest).head? = some c → isPySpace c = false := by
    intro c hc
    rw [dirMark] at hc
    simp only [List.cons_append, List.head?_cons, Option.some.injEq] at hc
    subst hc
    rfl
  obtain ⟨ht, hd⟩ := takeWhile_append_not isPySpace spc (dirMark ++ var ++ rest) hspc hmark
  have hvrest : ∀ c, rest.head? = some c → isVarChar c = false := by
    intro c hc
    rcases hrest with h | h
    · rw [h] at hc
      simp at hc
    · rw [h] at hc
      simp only [List.head?_cons, Option.some.injEq] at hc
      subst hc
      rfl
  obtain ⟨ht2, hd2⟩ := takeWhile_append_not isVarChar var rest hvarc hvrest
  unfold dirMatch
  simp only
  rw [show spc ++ dirMark ++ var ++ rest = spc ++ (dirMark ++ var ++ rest) by
    simp [List.append_assoc]]
  rw [ht, hd, List.append_assoc dirMark var rest]
  rw [if_pos (List.isPrefixOf_iff_prefix.mpr (List.prefix_append dirMark (var ++ rest)))]
  rw [show (dirMark ++ (var ++ rest)).drop 4 = var ++ rest from List.drop_left dirMark _]
  rw [ht2, hd2]
  rw [if_neg (by simpa using hvar)]
  rw [if_pos]
  rcases hrest with h | h
  · simp [h]
  · simp [h]

theorem dirMatch_ws_none {l : Str} (h : ∀ c ∈ l, isPySpace c = true) :
    dirMatch l = none := by
  unfold dirMatch
  simp only
  rw [dropWhile_eq_nil_of isPySpace l h]
  rw [if_neg (by decide)]

theorem dirMatch_none_cons {c : Char} {t : Str} (h1 : isPySpace c = false)
    (h2 : c ≠ '/') : dirMatch (c :: t) = none := by
  unfold dirMatch
  simp only
  have hd : (c :: t).dropWhile isPySpace = c :: t := by
    rw [List.dropWhile_cons, h1]
    simp
  rw [hd]
  have hbe : ('/' == c) = false := beq_eq_false_iff_ne.mpr (fun he => h2 he.symm)
  have hp : dirMark.isPrefixOf (c :: t) = false := by
    rw [show dirMark.isPrefixOf (c :: t) =
      (('/' == c) && (['/', ' ', '$'] : Str).isPrefixOf t) from rfl, hbe]
    rfl
  rw [hp]
  simp

theorem lineIsDir_build {spc var : Str} (hspc : ∀ c ∈ spc, isPySpace c = true)
    (hvar : var ≠ []) (hvarc : ∀ c ∈ var, isVarChar c = true) :
    lineIsDir (spc ++ dirMark ++ var) = true ∧ lineVar (spc ++ dirMark ++ var) = var := by
  have h := dirMatch_of_decomp hspc hvar hvarc (Or.inl rfl)
  rw [List.append_nil] at h
  constructor
  · unfold lineIsDir
    rw [h]
    rfl
  · unfold lineVar
    rw [h]

theorem lineIsDir_decomp {l : Str} (h : lineIsDir l = true) :
    ∃ spc, l = spc ++ dirMark ++ lineVar l ∧ (∀ c ∈ spc, isPySpace c = true) ∧
      lineVar l ≠ [] ∧ (∀ c ∈ lineVar l, isVarChar c = true) := by
  unfold lineIsDir at h
  cases hm : dirMatch l with
  | none =>
    rw [hm] at h
    simp at h
  | some p =>
    obtain ⟨spc, var, rest⟩ := p
    rw [hm] at h
    have hrest : rest = [] := by simpa using h
    obtain ⟨hd, hspc, hvne, hvc, _⟩ := dirMatch_decomp hm
    have hlv : lineVar l = var := by
      unfold lineVar
      rw [hm]
    subst hrest
    rw [List.append_nil] at hd
    rw [hlv]
    exact ⟨spc, hd, hspc, hvne, hvc⟩

theorem lineIsDir_cons_ws {c : Char} {l : Str} (hc : isPySpace c = true)
    (h : lineIsDir l = true) :
    lineIsDir (c :: l) = true ∧ lineVar (c :: l) = lineVar l := by
  obtain ⟨spc, hd, hspc, hvne, hvc⟩ := lineIsDir_decomp h
  set v := lineVar l with hv
  have hsp2 : ∀ x ∈ c :: spc, isPySpace x = true := by
    intro x hx
    rcases List.mem_cons.mp hx with rfl | hx
    · exact hc
    · exact hspc x hx
  have h2 := lineIsDir_build hsp2 hvne hvc
  have he : c :: l = (c :: spc) ++ dirMark ++ v := by
    conv_lhs => rw [hd]
    simp
  rw [he]
  exact ⟨h2.1, h2.2⟩


theorem dirMatch_splitNl_aux :
    ∀ (spc var rest : Str), (∀ c ∈ spc, isPySpace c = true) → var ≠ [] →
    (∀ c ∈ var, isVarChar c = true) → (rest = [] ∨ rest.head? = some '\n') →
    ∃ A dline, splitNl (spc ++ dirMark ++ var ++ rest) = A ++ dline :: restLines rest ∧
      (∀ l ∈ A, ∀ c ∈ l, isPySpace c = true) ∧
      lineIsDir dline = true ∧ lineVar dline = var := by
  intro spc
  induction spc with
  | nil =>
    intro var rest hspc hvne hvc hrest
    have hnoNl : ∀ c ∈ dirMark ++ var, c ≠ '\n' := by
      intro c hcm
      rcases List.mem_append.mp hcm with hcm | hcm
      · simp only [dirMark, List.mem_cons, List.not_mem_nil, or_false] at hcm
        rcases hcm with rfl | rfl | rfl | rfl <;> decide
      · intro he
        subst he
        have := hvc '\n' hcm
        exact absurd this (by decide)
    have hbuild := @lineIsDir_build [] _ (by simp) hvne hvc
    rcases hrest with rfl | hh
    · rw [List.nil_append, List.append_nil]
      rw [splitNl_of_noNl hnoNl]
      exact ⟨[], dirMark ++ var, by simp [restLines], by simp, hbuild.1, hbuild.2⟩
    · obtain ⟨r2, hr⟩ : ∃ r2, rest = '\n' :: r2 := by
        cases rest with
        | nil => simp at hh
        | cons x r =>
          simp only [List.head?_cons, Option.some.injEq] at hh
          exact ⟨r, by rw [hh]⟩
      subst hr
      rw [List.nil_append]
      rw [show (dirMark ++ var) ++ '\n' :: r2 =
        (dirMark ++ var) ++ '\n' :: r2 from rfl]
      rw [splitNl_append_nl hnoNl r2]
      exact ⟨[], dirMark ++ var, by simp [restLines], by simp, hbuild.1, hbuild.2⟩
  | cons c spc' ih =>
    intro var rest hspc hvne hvc hrest
    have hc : isPySpace c = true := hspc c (by simp)
    obtain ⟨A', dline, hsp, hA, hdl, hlv⟩ :=
      ih var rest (fun x hx => hspc x (by simp [hx])) hvne hvc hrest
    by_cases hcn : c = '\n'
    · subst hcn
      rw [show (('\n' :: spc') ++ dirMark ++ var ++ rest) =
        '\n' :: (spc' ++ dirMark ++ var ++ rest) by simp]
      rw [splitNl_nl, hsp]
      refine ⟨[] :: A', dline, by simp, ?_, hdl, hlv⟩
      intro l hl
      rcases List.mem_cons.mp hl with rfl | hl
      · simp
      · exact hA l hl
    · rw [show ((c :: spc') ++ dirMark ++ var ++ rest) =
        c :: (spc' ++ dirMark ++ var ++ rest) by simp]
      rw [splitNl_cons hcn, hsp]
      cases A' with
      | nil =>
        obtain ⟨hd1, hd2⟩ := lineIsDir_cons_ws hc hdl
        refine ⟨[], c :: dline, by simp, by simp, hd1, by rw [hd2, hlv]⟩
      | cons a A'' =>
        refine ⟨(c :: a) :: A'', dline, by simp, ?_, hdl, hlv⟩
        intro l hl
        rcases List.mem_cons.mp hl with rfl | hl
        · intro x hx
          rcases List.mem_cons.mp hx with rfl | hx
          · exact hc
          · exact hA a (by simp) x hx
        · exact hA l (List.mem_cons_of_mem a hl)

theorem dirMatch_splitNl {s spc var rest : Str}
    (h : dirMatch s = some (spc, var, rest)) :
    ∃ A dline, splitNl s = A ++ dline :: restLines rest ∧
      (∀ l ∈ A, ∀ c ∈ l, isPySpace c = true) ∧
      lineIsDir dline = true ∧ lineVar dline = var := by
  obtain ⟨hd, hspc, hvne, hvc, hrest⟩ := dirMatch_decomp h
  rw [hd]
  exact dirMatch_splitNl_aux spc var rest hspc hvne hvc hrest

theorem dirMatch_some_of_head_dir {s : Str}
    (h : lineIsDir ((splitNl s).headI) = true) : dirMatch s ≠ none := by
  obtain ⟨r, hr1, hr2⟩ := splitNl_head_decomp s
  obtain ⟨spc, hd, hspc, hvne, hvc⟩ := lineIsDir_decomp h
  have hrr : r = [] ∨ r.head? = some '\n' := by
    rcases hr2 with rfl | ⟨r2, rfl⟩
    · exact Or.inl rfl
    · exact Or.inr rfl
  have hs : s = spc ++ dirMark ++ lineVar ((splitNl s).headI) ++ r := by
    conv_lhs => rw [hr1]
    conv_lhs => rw [hd]
  intro hnone
  rw [hs, dirMatch_of_decomp hspc hvne hvc hrr] at hnone
  exact absurd hnone (by simp)

theorem subAux_true_eq (f : Str → Str → Except Str Str) (fuel : ℕ) (s : Str) :
    subAux f (fuel + 1) true s =
      match dirMatch s with
      | some (spc, var, rest) =>
        (match f spc var with
        | Except.error e => Except.error e
        | Except.ok r =>
          match subAux f fuel false rest with
          | Except.error e => Except.error e
          | Except.ok t => Except.ok (r ++ t))
      | none =>
        (match s with
        | [] => Except.ok []
        | c :: cs =>
          match subAux f fuel (c = '\n') cs with
          | Except.error e => Except.error e
          | Except.ok t => Except.ok (c :: t)) := rfl

theorem subAux_false_nil (f : Str → Str → Except Str Str) (fuel : ℕ) :
    subAux f (fuel + 1) false [] = Except.ok [] := rfl

theorem subAux_false_cons (f : Str → Str → Except Str Str) (fuel : ℕ)
    (c : Char) (cs : Str) :
    subAux f (fuel + 1) false (c :: cs) =
      match subAux f fuel (c = '\n') cs with
      | Except.error e => Except.error e
      | Except.ok t => Except.ok (c :: t) := rfl

theorem subAux_true_some (f : Str → Str → Except Str Str) (fuel : ℕ)
    {s spc var rest : Str} (h : dirMatch s = some (spc, var, rest)) :
    subAux f (fuel + 1) true s =
      match f spc var with
      | Except.error e => Except.error e
      | Except.ok r =>
        match subAux f fuel false rest with
        | Except.error e => Except.error e
        | Except.ok t => Except.ok (r ++ t) := by
  rw [subAux_true_eq, h]

theorem subAux_true_none_eq_false (f : Str → Str → Except Str Str) (fuel : ℕ)
    {s : Str} (h : dirMatch s = none) :
    subAux f (fuel + 1) true s = subAux f (fuel + 1) false s := by
  rw [subAux_true_eq, h]
  cases s with
  | nil => rfl
  | cons c cs => rfl

theorem subAux_no_dir (f : Str → Str → Except Str Str) :
    ∀ (fuel : ℕ) (s : Str), s.length < fuel →
      ((∀ l ∈ splitNl s, lineIsDir l = false) →
        subAux f fuel true s = Except.ok s) ∧
      ((∀ l ∈ (splitNl s).tail, lineIsDir l = false) →
        subAux f fuel false s = Except.ok s) := by
  intro fuel
  induction fuel with
  | zero =>
    intro s hs
    omega
  | succ fuel ih =>
    intro s hs
    have hfalse : (∀ l ∈ (splitNl s).tail, lineIsDir l = false) →
        subAux f (fuel + 1) false s = Except.ok s := by
      intro htl
      cases s with
      | nil => rfl
      | cons c cs =>
        rw [subAux_false_cons]
        by_cases hcn : c = '\n'
        · subst hcn
          have h1 := (ih cs (by simp at hs; omega)).1
          rw [splitNl_nl] at htl
          simp only [List.tail_cons] at htl
          rw [show (decide (('\n' : Char) = '\n')) = true from by decide]
          rw [h1 htl]
        · have h2 := (ih cs (by simp at hs; omega)).2
          rw [splitNl_cons hcn] at htl
          simp only [List.tail_cons] at htl
          rw [show (decide (c = '\n')) = false from by simp [hcn]]
          rw [h2 htl]
    refine ⟨?_, hfalse⟩
    intro hnd
    have hm : dirMatch s = none := by
      cases hm : dirMatch s with
      | none => rfl
      | some p =>
        obtain ⟨spc, var, rest⟩ := p
        obtain ⟨A, dline, hsp, _, hdl, _⟩ := dirMatch_splitNl hm
        have hmem : dline ∈ splitNl s := by
          rw [hsp]
          exact List.mem_append.mpr (Or.inr (by simp))
        rw [hnd dline hmem] at hdl
        simp at hdl
    rw [subAux_true_none_eq_false f fuel hm]
    exact hfalse (fun l hl => hnd l (mem_tail_mem hl))

theorem substitute_unknown (cuts : List Cut) (spc var : Str)
    (h : ¬ var ∈ knownVars) :
    substitute cuts spc var =
      Except.error ((("AssertionError: do not know how to substitute ").toList) ++ var) := by
  simp only [knownVars, List.mem_cons, List.not_mem_nil, or_false, not_or] at h
  obtain ⟨h1, h2, h3, h4, h5⟩ := h
  rw [substitute, if_neg h1, if_neg h2, if_neg h3, if_neg h4, if_neg h5]

theorem substitute_known (cuts : List Cut) (spc var : Str) (h : var ∈ knownVars) :
    ∃ out, substitute cuts spc var = Except.ok out := by
  simp only [knownVars, List.mem_cons, List.not_mem_nil, or_false] at h
  rcases h with rfl | rfl | rfl | rfl | rfl
  · exact ⟨_, rfl⟩
  · exact ⟨_, rfl⟩
  · exact ⟨_, rfl⟩
  · exact ⟨_, rfl⟩
  · exact ⟨_, rfl⟩

theorem subAux_unknown_dir (cuts : List Cut) :
    ∀ (fuel : ℕ) (s : Str), s.length < fuel →
      ((∃ l ∈ splitNl s, lineIsDir l = true ∧ ¬ lineVar l ∈ knownVars) →
        ∃ e, subAux (substitute cuts) fuel true s = Except.error e) ∧
      ((∃ l ∈ (splitNl s).tail, lineIsDir l = true ∧ ¬ lineVar l ∈ knownVars) →
        ∃ e, subAux (substitute cuts) fuel false s = Except.error e) := by
  intro fuel
  induction fuel with
  | zero =>
    intro s hs
    omega
  | succ fuel ih =>
    intro s hs
    have hfalse : (∃ l ∈ (splitNl s).tail, lineIsDir l = true ∧ ¬ lineVar l ∈ knownVars) →
        ∃ e, subAux (substitute cuts) (fuel + 1) false s = Except.error e := by
      rintro ⟨l0, hl0, hdir0, hunk0⟩
      cases s with
      | nil => simp [splitNl] at hl0
      | cons c cs =>
        rw [subAux_false_cons]
        by_cases hcn : c = '\n'
        · subst hcn
          rw [splitNl_nl] at hl0
          simp only [List.tail_cons] at hl0
          obtain ⟨e, he⟩ := (ih cs (by simp at hs; omega)).1 ⟨l0, hl0, hdir0, hunk0⟩
          refine ⟨e, ?_⟩
          rw [show (decide (('\n' : Char) = '\n')) = true from by decide, he]
        · rw [splitNl_cons hcn] at hl0
          simp only [List.tail_cons] at hl0
          obtain ⟨e, he⟩ := (ih cs (by simp at hs; omega)).2 ⟨l0, hl0, hdir0, hunk0⟩
          refine ⟨e, ?_⟩
          rw [show (decide (c = '\n')) = false from by simp [hcn], he]
    refine ⟨?_, hfalse⟩
    rintro ⟨l0, hl0, hdir0, hunk0⟩
    cases hm : dirMatch s with
    | none =>
      rw [subAux_true_none_eq_false (substitute cuts) fuel hm]
      apply hfalse
      have hsplit : splitNl s = (splitNl s).headI :: (splitNl s).tail := by
        cases hsp : splitNl s with
        | nil => exact absurd hsp (splitNl_ne_nil s)
        | cons a t => simp
      rw [hsplit] at hl0
      rcases List.mem_cons.mp hl0 with rfl | hl0
      · exact absurd hm (dirMatch_some_of_head_dir hdir0)
      · exact ⟨l0, hl0, hdir0, hunk0⟩
    | some p =>
      obtain ⟨spc, var, rest⟩ := p
      rw [subAux_true_some (substitute cuts) fuel hm]
      by_cases hk : var ∈ knownVars
      · obtain ⟨out, hout⟩ := substitute_known cuts spc var hk
        obtain ⟨A, dline, hsp, hA, hdl, hlv⟩ := dirMatch_splitNl hm
        rw [hsp] at hl0
        rcases List.mem_append.mp hl0 with hl0 | hl0
        · have hws := hA l0 hl0
          have hnd : lineIsDir l0 = false := by
            unfold lineIsDir
            rw [dirMatch_ws_none hws]
          rw [hnd] at hdir0
          simp at hdir0
        · rcases List.mem_cons.mp hl0 with rfl | hl0
          · exact absurd hk (hlv ▸ hunk0)
          · obtain ⟨_, _, _, _, hrest⟩ := dirMatch_decomp hm
            rcases hrest with rfl | hh
            · simp [restLines] at hl0
            · obtain ⟨r2, hr⟩ : ∃ r2, rest = '\n' :: r2 := by
                cases rest with
                | nil => simp at hh
                | cons x r =>
                  simp only [List.head?_cons, Option.some.injEq] at hh
                  exact ⟨r, by rw [hh]⟩
              subst hr
              simp only [restLines] at hl0
              have h1 := dirMatch_length hm
              have hrl : ('\n' :: r2).length < fuel := by omega
              obtain ⟨e, he⟩ := (ih ('\n' :: r2) hrl).2
                ⟨l0, by rw [splitNl_nl]; simpa using hl0, hdir0, hunk0⟩
              refine ⟨e, ?_⟩
              rw [hout, he]
      · rw [substitute_unknown cuts spc var hk]
        exact ⟨_, rfl⟩

theorem sub_directives_single (f : Str → Str → Except Str Str) (spc var : Str)
    (hspc : ∀ c ∈ spc, isPySpace c = true) (hvne : var ≠ [])
    (hvc : ∀ c ∈ var, isVarChar c = true) :
    sub_directives f (spc ++ dirMark ++ var) = f spc var := by
  have hm := dirMatch_of_decomp hspc hvne hvc (Or.inl rfl)
  rw [List.append_nil] at hm
  unfold sub_directives
  rw [subAux_true_some f ((spc ++ dirMark ++ var).length) hm]
  cases hf : f spc var with
  | error e => rfl
  | ok r =>
    have hz : (spc ++ dirMark ++ var).length ≠ 0 := by simp [dirMark]
    obtain ⟨m, hm2⟩ := Nat.exists_eq_succ_of_ne_zero hz
    rw [hm2, subAux_false_nil]
    simp

theorem sub_directives_after_line (f : Str → Str → Except Str Str) (ind var : Str)
    (hind : ∀ c ∈ ind, isPySpace c = true) (hvne : var ≠ [])
    (hvc : ∀ c ∈ var, isVarChar c = true) :
    sub_directives f ('x' :: '\n' :: (ind ++ dirMark ++ var)) =
      match f ind var with
      | Except.error e => Except.error e
      | Except.ok r => Except.ok ('x' :: '\n' :: r) := by
  have hm := dirMatch_of_decomp hind hvne hvc (Or.inl rfl)
  rw [List.append_nil] at hm
  unfold sub_directives
  rw [show ('x' :: '\n' :: (ind ++ dirMark ++ var)).length + 1 =
    (((ind ++ dirMark ++ var).length + 1) + 1) + 1 from by simp]
  rw [subAux_true_none_eq_false f ((ind ++ dirMark ++ var).length + 1 + 1)
    (dirMatch_none_cons (by decide) (by decide))]
  rw [subAux_false_cons]
  rw [show (decide (('x' : Char) = '\n')) = false from by decide]
  rw [subAux_false_cons]
  rw [show (decide (('\n' : Char) = '\n')) = true from by decide]
  rw [subAux_true_some f ((ind ++ dirMark ++ var).length) hm]
  cases hf : f ind var with
  | error e => rfl
  | ok r =>
    have hz : (ind ++ dirMark ++ var).length ≠ 0 := by simp [dirMark]
    obtain ⟨m, hm2⟩ := Nat.exists_eq_succ_of_ne_zero hz
    rw [hm2, subAux_false_nil]
    simp

theorem sub_directives_after_blank (f : Str → Str → Except Str Str) (ind var : Str)
    (hind : ∀ c ∈ ind, isPySpace c = true) (hvne : var ≠ [])
    (hvc : ∀ c ∈ var, isVarChar c = true) :
    sub_directives f ('x' :: '\n' :: '\n' :: (ind ++ dirMark ++ var)) =
      match f ('\n' :: ind) var with
      | Except.error e => Except.error e
      | Except.ok r => Except.ok ('x' :: '\n' :: r) := by
  have hind2 : ∀ c ∈ ('\n' :: ind), isPySpace c = true := by
    intro c hc
    rcases List.mem_cons.mp hc with rfl | hc
    · decide
    · exact hind c hc
  have hm := dirMatch_of_decomp hind2 hvne hvc (Or.inl rfl)
  rw [List.append_nil] at hm
  unfold sub_directives
  rw [show ('x' :: '\n' :: '\n' :: (ind ++ dirMark ++ var)).length + 1 =
    ((((ind ++ dirMark ++ var).length + 1) + 1) + 1) + 1 from by simp]
  rw [subAux_true_none_eq_false f ((ind ++ dirMark ++ var).length + 1 + 1 + 1)
    (dirMatch_none_cons (by decide) (by decide))]
  rw [subAux_false_cons]
  rw [show (decide (('x' : Char) = '\n')) = false from by decide]
  rw [subAux_false_cons]
  rw [show (decide (('\n' : Char) = '\n')) = true from by decide]
  rw [show ('\n' :: (ind ++ dirMark ++ var)) = (('\n' :: ind) ++ dirMark ++ var) from by simp]
  rw [subAux_true_some f ((ind ++ dirMark ++ var).length + 1) hm]
  cases hf : f ('\n' :: ind) var with
  | error e => rfl
  | ok r =>
    rw [subAux_false_nil]
    simp

/-- C10: only a line made of optional whitespace, the marker `// $` and a
nonempty `[A-Z_]+` identifier is treated as a directive.  A template none of
whose lines has that shape is copied to the output verbatim, without error,
whatever the substitution function may do; a line that does have the shape is
handed to the substitution function with exactly its leading whitespace and
identifier. -/
theorem C10_directive_shape :
    (∀ (f : Str → Str → Except Str Str) (s : Str),
      (∀ l ∈ splitNl s, lineIsDir l = false) → sub_directives f s = Except.ok s) ∧
    (∀ (f : Str → Str → Except Str Str) (spc var : Str),
      (∀ c ∈ spc, isPySpace c = true) → var ≠ [] →
      (∀ c ∈ var, isVarChar c = true) →
      sub_directives f (spc ++ dirMark ++ var) = f spc var) := by
  constructor
  · intro f s h
    exact (subAux_no_dir f (s.length + 1) s (by omega)).1 h
  · intro f spc var h1 h2 h3
    exact sub_directives_single f spc var h1 h2 h3

/-- C10 witness: near-miss lines (lowercase identifier, trailing text after
the identifier, missing space in the marker) pass through verbatim, and an
exact directive line is substituted. -/
theorem C10_witness :
    sub_directives (substitute [])
        (("  // $mod_cuts\n  // $MOD_CUTS extra\n  //$MOD_CUTS").toList) =
      Except.ok (("  // $mod_cuts\n  // $MOD_CUTS extra\n  //$MOD_CUTS").toList) ∧
    sub_directives (substitute []) ((" ").toList ++ dirMark ++ ("MOD_CUTS").toList) =
      substitute [] ((" ").toList) (("MOD_CUTS").toList) := by
  constructor
  · exact C10_directive_shape.1 (substitute []) _ (by decide)
  · exact C10_directive_shape.2 (substitute []) ((" ").toList) (("MOD_CUTS").toList)
      (by decide) (by decide) (by decide)

/-- C9: for every registry, a template containing a directive line whose
identifier is not one of the five known directives makes substitution fail
with an error (never a silent skip), while each known directive identifier
expands without error. -/
theorem C9_unknown_directive_fatal (cuts : List Cut) :
    (∀ s : Str,
      (∃ l ∈ splitNl s, lineIsDir l = true ∧ ¬ lineVar l ∈ knownVars) →
      ∃ e, sub_directives (substitute cuts) s = Except.error e) ∧
    (∀ spc var : Str, (∀ c ∈ spc, isPySpace c = true) → var ≠ [] →
      (∀ c ∈ var, isVarChar c = true) → var ∈ knownVars →
      ∃ out, sub_directives (substitute cuts) (spc ++ dirMark ++ var) =
        Except.ok out) := by
  constructor
  · intro s h
    exact (subAux_unknown_dir cuts (s.length + 1) s (by omega)).1 h
  · intro spc var h1 h2 h3 hk
    obtain ⟨out, hout⟩ := substitute_known cuts spc var hk
    exact ⟨out, by rw [sub_directives_single (substitute cuts) spc var h1 h2 h3, hout]⟩

/-- C9 witness: the unknown directive `// $BOGUS` is a fatal error, and the
known directive `// $VERIFIER_CUTS` expands without error. -/
theorem C9_witness :
    (∃ e, sub_directives (substitute []) (("x\n  // $BOGUS").toList) =
      Except.error e) ∧
    (∃ out, sub_directives (substitute [])
        ((" ").toList ++ dirMark ++ ("VERIFIER_CUTS").toList) = Except.ok out) := by
  constructor
  · exact (C9_unknown_directive_fatal []).1 (("x\n  // $BOGUS").toList) (by decide)
  · exact (C9_unknown_directive_fatal []).2 ((" ").toList) (("VERIFIER_CUTS").toList)
      (by decide) (by decide) (by decide) (by decide)

/-- C5 (counterexample): the module-list directive does NOT produce one
module-declaration line per cut in general.  With two cuts `a`, `b` and the
template `x\n  // $MOD_CUTS`, the regex captures only the spaces of the
directive line, the per-cut fragments `  mod a;` / `  mod b;` are joined by
`"".join` with no separator, and the result has a single generated line
`  mod a;  mod b;` holding both declarations. -/
theorem C5_counterexample :
    sub_directives (substitute
        [⟨("0").toList, none, ("a").toList⟩, ⟨("1").toList, none, ("b").toList⟩])
        (("x\n  // $MOD_CUTS").toList) =
      Except.ok (("x\n  mod a;  mod b;").toList) ∧
    (splitNl (("x\n  mod a;  mod b;").toList)).length = 2 := by
  constructor
  · decide
  · decide

/-- C5 (amended): each per-cut fragment starts with the captured whitespace
group, which is the directive line's indentation ONLY when the preceding line
is nonempty; the fragments are concatenated with no separator, so all
declarations land on one generated line.  When a blank line precedes the
directive, the capture starts with that newline and each fragment begins with
`\n` + indentation, giving one declaration line per cut.  Shown for both the
module-list and the constant-list directive. -/
theorem C5_amended (cuts : List Cut) (ind : Str)
    (hind : ∀ c ∈ ind, isPySpace c = true) :
    sub_directives (substitute cuts)
        ('x' :: '\n' :: (ind ++ dirMark ++ ("MOD_CUTS").toList)) =
      Except.ok ('x' :: '\n' ::
        (cuts.map (fun c => ind ++ ("mod ").toList ++ c.module ++ [';'])).flatten) ∧
    sub_directives (substitute cuts)
        ('x' :: '\n' :: '\n' :: (ind ++ dirMark ++ ("MOD_CUTS").toList)) =
      Except.ok ('x' :: '\n' ::
        (cuts.map (fun c =>
          ('\n' :: ind) ++ ("mod ").toList ++ c.module ++ [';'])).flatten) ∧
    sub_directives (substitute cuts)
        ('x' :: '\n' :: (ind ++ dirMark ++ ("FEATURE_CONSTS").toList)) =
      Except.ok ('x' :: '\n' ::
        (cuts.filterMap (fun c => c.feature.map (fun fc =>
          ind ++ ("pub const ").toList ++ fc ++ (": u64 = ").toList ++
            c.version ++ [';']))).flatten) ∧
    sub_directives (substitute cuts)
        ('x' :: '\n' :: '\n' :: (ind ++ dirMark ++ ("FEATURE_CONSTS").toList)) =
      Except.ok ('x' :: '\n' ::
        (cuts.filterMap (fun c => c.feature.map (fun fc =>
          ('\n' :: ind) ++ ("pub const ").toList ++ fc ++ (": u64 = ").toList ++
            c.version ++ [';']))).flatten) := by
  refine ⟨?_, ?_, ?_, ?_⟩
  · have h1 := sub_directives_after_line (substitute cuts) ind (("MOD_CUTS").toList)
      hind (by decide) (by decide)
    rw [show substitute cuts ind (("MOD_CUTS").toList) =
      Except.ok ((cuts.map (fun c =>
        ind ++ ("mod ").toList ++ c.module ++ [';'])).flatten) from rfl] at h1
    exact h1
  · have h1 := sub_directives_after_blank (substitute cuts) ind (("MOD_CUTS").toList)
      hind (by decide) (by decide)
    rw [show substitute cuts ('\n' :: ind) (("MOD_CUTS").toList) =
      Except.ok ((cuts.map (fun c =>
        ('\n' :: ind) ++ ("mod ").toList ++ c.module ++ [';'])).flatten) from rfl] at h1
    exact h1
  · have h1 := sub_directives_after_line (substitute cuts) ind
      (("FEATURE_CONSTS").toList) hind (by decide) (by decide)
    rw [show substitute cuts ind (("FEATURE_CONSTS").toList) =
      Except.ok ((cuts.filterMap (fun c => c.feature.map (fun fc =>
        ind ++ ("pub const ").toList ++ fc ++ (": u64 = ").toList ++
          c.version ++ [';']))).flatten) from rfl] at h1
    exact h1
  · have h1 := sub_directives_after_blank (substitute cuts) ind
      (("FEATURE_CONSTS").toList) hind (by decide) (by decide)
    rw [show substitute cuts ('\n' :: ind) (("FEATURE_CONSTS").toList) =
      Except.ok ((cuts.filterMap (fun c => c.feature.map (fun fc =>
        ('\n' :: ind) ++ ("pub const ").toList ++ fc ++ (": u64 = ").toList ++
          c.version ++ [';']))).flatten) from rfl] at h1
    exact h1

/-- C5 witness: with a blank line before the directive the two cuts do get
one `mod` declaration line each, newline-prefixed indentation included. -/
theorem C5_witness :
    sub_directives (substitute
        [⟨("0").toList, none, ("a").toList⟩, ⟨("1").toList, none, ("b").toList⟩])
        (("x\n\n  // $MOD_CUTS").toList) =
      Except.ok (("x\n\n  mod a;\n  mod b;").toList) := by
  have h := (C5_amended
    [⟨("0").toList, none, ("a").toList⟩, ⟨("1").toList, none, ("b").toList⟩]
    (("  ").toList) (by decide)).2.1
  exact h.trans (by decide)

theorem snapKey_le_antisymm : ∀ a b : SnapKey,
    SnapKey.le a b = true → SnapKey.le b a = true → a = b := by
  intro a b h1 h2
  cases a <;> cases b <;> simp [SnapKey.le] at h1 h2 ⊢ <;> omega

/-- C8: registry construction and template substitution are deterministic
functions of the discovered stem set: for any reordering of the directory
listing (with distinct stems, parseable snapshot keys, and pairwise distinct
snapshot sort keys) the registry and the generated bytes are identical. -/
theorem C8_deterministic (stems stems2 : List Str) (hp : stems ~ stems2)
    (hnd : stems.Nodup)
    (hkeys : ∀ s ∈ snapshotStems stems, (snapshot_key s).isSome = true)
    (hdist : (snapshotStems stems).Pairwise
      (fun x y => snapKeyTotal x ≠ snapKeyTotal y)) :
    discover_cuts stems = discover_cuts stems2 ∧
    ∀ t : Str, generate_lib stems t = generate_lib stems2 t := by
  have hps : snapshotStems stems ~ snapshotStems stems2 := by
    unfold snapshotStems cutCandidates
    exact (hp.filter _).filter _
  have hfs : featureStems stems ~ featureStems stems2 := by
    unfold featureStems cutCandidates
    exact (hp.filter _).filter _
  have hkey : ∀ s ∈ snapshotStems stems, snapshot_key s = some (snapKeyTotal s) := by
    intro s hs
    have h := hkeys s hs
    cases hsk : snapshot_key s with
    | none => rw [hsk] at h; simp at h
    | some k => rw [snapKeyTotal, hsk]; rfl
  have hkey2 : ∀ s ∈ snapshotStems stems2, snapshot_key s = some (snapKeyTotal s) :=
    fun s hs => hkey s (hps.mem_iff.mpr hs)
  have hm1 := mapM_orErr_ok (f := snapshot_key) (g := snapKeyTotal) (e := intErr)
    (snapshotStems stems) hkey
  have hm2 := mapM_orErr_ok (f := snapshot_key) (g := snapKeyTotal) (e := intErr)
    (snapshotStems stems2) hkey2
  have hsort1 : sortB snapLe (snapshotStems stems) =
      sortB snapLe (snapshotStems stems2) :=
    sortB_eq_of_perm snapLe_total snapLe_trans hps
      (hdist.imp (fun hne hc => hne (snapKey_le_antisymm _ _ hc.1 hc.2)))
  have hndf : (featureStems stems).Pairwise (fun x y => x ≠ y) := by
    have h : (featureStems stems).Nodup := (hnd.filter _).filter _
    exact h
  have hsort2 : sortB pyStrLe (featureStems stems) =
      sortB pyStrLe (featureStems stems2) :=
    sortB_eq_of_perm pyStrLe_total pyStrLe_trans hfs
      (hndf.imp (fun hne hc => hne (pyStrLe_antisymm _ _ hc.1 hc.2)))
  have hdc : discover_cuts stems = discover_cuts stems2 := by
    simp only [discover_cuts]
    rw [hm1, hm2, hsort1, hsort2]
  exact ⟨hdc, fun t => by simp only [generate_lib]; rw [hdc]⟩

/-- C8 witness: a concrete relisting of `{v0, latest, a}` produces the same
registry and the same generated bytes. -/
theorem C8_witness :
    discover_cuts [("v0").toList, ("latest").toList, ("a").toList] =
      discover_cuts [("a").toList, ("v0").toList, ("latest").toList] ∧
    generate_lib [("v0").toList, ("latest").toList, ("a").toList]
        (("  // $MOD_CUTS\n").toList) =
      generate_lib [("a").toList, ("v0").toList, ("latest").toList]
        (("  // $MOD_CUTS\n").toList) := by
  have h := C8_deterministic
    [("v0").toList, ("latest").toList, ("a").toList]
    [("a").toList, ("v0").toList, ("latest").toList]
    (by decide) (by decide) (by decide) (by decide)
  exact ⟨h.1, h.2 (("  // $MOD_CUTS\n").toList)⟩
